import Mathlib

/-!
# BePDF, `FileInfoWindow.cpp`: the PDF date string reader `ToDate` / `ToInt`

A shallow embedding of `ToInt`, the `COPYN` loop, `ToDate` and the part of
`FileInfoWindow::GetProperty` that calls it, followed by theorems about them.

Modelling decisions.

* A `const char *` is the list of bytes found at the pointer, terminator included
  (`cstr s = s ++ [NUL]`).  `date[i]` is `rd date i`; it is `none` when `i` lies outside the
  list, so a result `none` of any function below means: the C code read a byte past the
  terminator of its argument.
* The four loops of the source only ever move forward through the buffer, so each one is
  written as a structural recursion on the bytes from the current index on
  (`date.drop i`); the index itself is threaded through as in the source.
* `int` results of `ToInt` are reduced to 32 bits (`wrap32`).  All other `int` arithmetic of
  `ToDate` is on values of at most four decimal digits and is left unreduced.
* `static char s[80]` is a list that grows at its end (`s[j++] = c` is `s ++ [c]`). The
  capacity of 80 is not enforced by the model: a theorem bounds the length of what is written,
  and a statement that needs the output to be in the buffer carries the bound on the input
  under which it fits.
* `date` and `s` are separate memory in the model. A call whose argument is the buffer an
  earlier call returned is spoken of only where it returns at line 138, before it writes.
* `struct tm d` is `Tm`.  The source calls `memset(&d, sizeof(d), 0)`: fill value
  `sizeof(d)`, length `0`.  `memset` below follows the C argument order, and `ToDate` takes
  the content `d0` the stack slot happens to hold.
* `mktime` and `TextToUtf8` are external and passed in as functions.
-/

namespace BePDF

/-! ## The source, embedded -/

/-- The terminating byte of a C string. -/
def NUL : Char := Char.ofNat 0

/-- The apostrophe that delimits the parts of the UTC offset. -/
def APOS : Char := Char.ofNat 39

/-- A C string as the bytes found at the pointer: its characters, then the terminator. -/
def cstr (s : List Char) : List Char := s ++ [NUL]

/-- Reads `date[i]`; `none` when `i` lies outside the buffer. -/
def rd (date : List Char) (i : Nat) : Option Char := date[i]?

/-- An `int` result, reduced to 32-bit two's complement. -/
def wrap32 (x : Int) : Int := (x + 2147483648) % 4294967296 - 2147483648

/-- The `int` value `(int)(s[i] - '0')`. -/
def digitVal (c : Char) : Int := (c.toNat : Int) - ('0'.toNat : Int)

/-- Loop of `ToInt` (line 77), on the bytes from `s + i` on:
`for (; n && s[i] && isdigit(s[i]); n--, i++) d = 10 * d + (int)(s[i] - '0');` -/
def ToInt.loop : List Char → Int → Int → Option Int
  | [], n, d => if n = 0 then some d else none
  | c :: rest, n, d =>
    if n = 0 then some d
    else if c ≠ NUL ∧ c.isDigit = true then
      ToInt.loop rest (n - 1) (wrap32 (10 * d + digitVal c))
    else some d

/-- Source: `static int ToInt(const char *s, int i, int n)`, lines 75-81. -/
def ToInt (s : List Char) (i : Nat) (n : Int) : Option Int :=
  ToInt.loop (s.drop i) n 0

/-- Loop of `COPYN` (line 73), on the bytes from `date + i` on:
`for (n = N; n && date[i]; n--) s[j++] = date[i++];`.
A negative `N` never reaches zero, so the loop then runs up to the terminator. -/
def COPYN.loop : List Char → Int → Nat → List Char → Option (Nat × List Char)
  | [], n, i, s => if n = 0 then some (i, s) else none
  | c :: rest, n, i, s =>
    if n = 0 then some (i, s)
    else if c ≠ NUL then COPYN.loop rest (n - 1) (i + 1) (s ++ [c])
    else some (i, s)

/-- Source: `#define COPYN(N)`, line 73. Returns the new `i` and the new content of `s`. -/
def COPYN (date : List Char) (N : Int) (i : Nat) (s : List Char) : Option (Nat × List Char) :=
  COPYN.loop (date.drop i) N i s

/-- Loop of line 92, `while (date[i] == ' ') i++;`, on the bytes from `date + i` on. -/
def skipSpaces.loop : List Char → Nat → Option Nat
  | [], _ => none
  | c :: rest, i => if c = ' ' then skipSpaces.loop rest (i + 1) else some i

/-- Source line 92: `while (date[i] == ' ') i++;`. -/
def skipSpaces (date : List Char) (i : Nat) : Option Nat := skipSpaces.loop (date.drop i) i

/-- Loop of line 94, `while (date[i] && isdigit(date[i])) i++;`. -/
def scanDigits.loop : List Char → Nat → Option Nat
  | [], _ => none
  | c :: rest, i => if c ≠ NUL ∧ c.isDigit = true then scanDigits.loop rest (i + 1) else some i

/-- Source line 94: `while (date[i] && isdigit(date[i])) i++;`. -/
def scanDigits (date : List Char) (i : Nat) : Option Nat := scanDigits.loop (date.drop i) i

/-- The fields of `struct tm`, `tm_gmtoff` included. -/
structure Tm where
  tm_sec : Int
  tm_min : Int
  tm_hour : Int
  tm_mday : Int
  tm_mon : Int
  tm_year : Int
  tm_wday : Int
  tm_yday : Int
  tm_isdst : Int
  tm_gmtoff : Int
deriving DecidableEq, Repr

/-- C `memset(p, c, n)` on a `struct tm`, arguments in the C order: fill byte `c`, byte count
`n`. With `n = 0` nothing is written. For `n ≠ 0` the model fills every field with the repeated
byte, which is exact for `n = sizeof(struct tm)`; `ToDate` only uses `n = 0`. -/
def memset (d : Tm) (c : Nat) (n : Nat) : Tm :=
  if n = 0 then d
  else
    let w : Int := wrap32 (((c % 256) * 16843009 : Nat) : Int)
    ⟨w, w, w, w, w, w, w, w, w, w⟩

/-- The value of `sizeof(struct tm)`; it is only ever used as a fill byte. -/
def sizeofTm : Nat := 56

/-- What `ToDate` returns: the pointer it was given, or the static buffer `s`. -/
inductive Ret where
  | input
  | buffer (s : List Char)
deriving DecidableEq, Repr

/-- Outcome of `ToDate`: the returned pointer, the pointee of `time` after the call (`none`
for a null pointer), and the local `d` as it stands at line 134, where it is handed to
`mktime`. -/
structure DateOut where
  ret : Ret
  time : Option Int
  d : Tm
deriving DecidableEq, Repr

/-- Lines 119-131 of `ToDate`: the offset block. -/
def ToDate.offset (date : List Char) (d : Tm) (i : Nat) (s : List Char) :
    Option (Tm × List Char) :=
  (rd date i).bind fun c =>
  if c ≠ NUL then
    let s1 := s ++ [' ']
    let sign : Int := if c = '-' then -1 else 1
    let s2 := s1 ++ [c]
    let i1 := i + 1
    (ToInt date i1 2).bind fun h =>
    (COPYN date 2 i1 s2).bind fun p1 =>
    let i2 := p1.1 + 1
    let s3 := p1.2 ++ [':']
    (ToInt date i2 2).bind fun m =>
    (COPYN date 2 i2 s3).bind fun p2 =>
    some ({ d with tm_gmtoff := (h * 3600 + m * 60) * sign }, p2.2)
  else some (d, s)

/-- Lines 110-132 of `ToDate`: the time-of-day block. -/
def ToDate.clock (date : List Char) (d : Tm) (i : Nat) (s : List Char) :
    Option (Tm × List Char) :=
  (rd date i).bind fun c =>
  if c ≠ NUL then
    (ToInt date i 2).bind fun hour =>
    (COPYN date 2 i s).bind fun p1 =>
    (ToInt date p1.1 2).bind fun min =>
    (COPYN date 2 p1.1 (p1.2 ++ [':'])).bind fun p2 =>
    (ToInt date p2.1 2).bind fun sec =>
    (COPYN date 2 p2.1 (p2.2 ++ [':'])).bind fun p3 =>
    ToDate.offset date { d with tm_hour := hour, tm_min := min, tm_sec := sec } p3.1 p3.2
  else some (d, s)

/-- Lines 90-109 of `ToDate`: year, month and day, then the time-of-day block. -/
def ToDate.calendar (date : List Char) (d : Tm) : Option (Tm × List Char) :=
  (skipSpaces date 2).bind fun frm =>
  (scanDigits date frm).bind fun upto =>
  (ToInt date frm 4).bind fun year =>
  (if (upto : Int) - (frm : Int) > 12 then COPYN date ((upto : Int) - (frm : Int) - 10) frm []
   else COPYN date ((upto : Int) - (frm : Int) - 4) frm []).bind fun p0 =>
  (ToInt date p0.1 2).bind fun mon =>
  (COPYN date 2 p0.1 (p0.2 ++ ['/'])).bind fun p1 =>
  (ToInt date p1.1 2).bind fun mday =>
  (COPYN date 2 p1.1 (p1.2 ++ ['/'])).bind fun p2 =>
  ToDate.clock date { d with tm_year := year - 1900, tm_mon := mon - 1, tm_mday := mday }
    p2.1 (p2.2 ++ [' '])

/-- Line 89: `(date[0] == 'D') && (date[1] == ':')`; `date[1]` is read only after a `D`. -/
def dateMarker (date : List Char) : Option Bool :=
  (rd date 0).bind fun c0 =>
  if c0 = 'D' then (rd date 1).bind fun c1 => some (decide (c1 = ':')) else some false

/-- Source: `static const char *ToDate(const char *date, time_t *time)`, lines 84-139.
`d0` is the content of the stack slot of `d` on entry. -/
def ToDate (mktime : Tm → Int) (d0 : Tm) (date : List Char) (time : Option Int) :
    Option DateOut :=
  let d := memset d0 sizeofTm 0
  (dateMarker date).bind fun b =>
  if b then
    (ToDate.calendar date d).bind fun r =>
    some { ret := .buffer r.2, time := time.map (fun _ => mktime r.1), d := r.1 }
  else some { ret := .input, time := time, d := d }

/-- An entry of the info dictionary: a string object, or an object of another type. -/
inductive Object where
  | string (g : List Char)
  | other
deriving DecidableEq, Repr

/-- Source: `FileInfoWindow::GetProperty`, lines 148-168. `item` is what `dict->lookup`
finds. Returns the `BString` produced (if any) and the pointee of `time`. -/
def GetProperty {β : Type} (TextToUtf8 : List Char → β) (mktime : Tm → Int) (d0 : Tm)
    (item : Option Object) (time : Option Int) : Option (Option β × Option Int) :=
  let time0 := time.map (fun _ => (0 : Int))
  match item with
  | some (.string g) =>
    (ToDate mktime d0 (cstr g) time0).bind fun r =>
      match r.ret with
      | .buffer s => some (some (TextToUtf8 (s.takeWhile (fun c => c ≠ NUL))), r.time)
      | .input => some (some (TextToUtf8 g), r.time)
  | _ => some (none, time0)

/-! ## `ToDate` with a log of its `ToInt` calls

The same code once more, with one addition: every call `ToInt(date, i, n)` is entered in a log
as the pair `(i, n)`. `logged_ToDate_erase` below shows that dropping the log gives `ToDate`. -/

/-- Lines 119-131 with the log: the calls of lines 125 and 128. -/
def Logged.offset (date : List Char) (d : Tm) (i : Nat) (s : List Char)
    (log : List (Nat × Nat)) : Option (Tm × List Char × List (Nat × Nat)) :=
  (rd date i).bind fun c =>
  if c ≠ NUL then
    let s1 := s ++ [' ']
    let sign : Int := if c = '-' then -1 else 1
    let s2 := s1 ++ [c]
    let i1 := i + 1
    (ToInt date i1 2).bind fun h =>
    (COPYN date 2 i1 s2).bind fun p1 =>
    let i2 := p1.1 + 1
    let s3 := p1.2 ++ [':']
    (ToInt date i2 2).bind fun m =>
    (COPYN date 2 i2 s3).bind fun p2 =>
    some ({ d with tm_gmtoff := (h * 3600 + m * 60) * sign }, p2.2, log ++ [(i1, 2), (i2, 2)])
  else some (d, s, log)

/-- Lines 110-132 with the log: the calls of lines 111, 114 and 117. -/
def Logged.clock (date : List Char) (d : Tm) (i : Nat) (s : List Char)
    (log : List (Nat × Nat)) : Option (Tm × List Char × List (Nat × Nat)) :=
  (rd date i).bind fun c =>
  if c ≠ NUL then
    (ToInt date i 2).bind fun hour =>
    (COPYN date 2 i s).bind fun p1 =>
    (ToInt date p1.1 2).bind fun min =>
    (COPYN date 2 p1.1 (p1.2 ++ [':'])).bind fun p2 =>
    (ToInt date p2.1 2).bind fun sec =>
    (COPYN date 2 p2.1 (p2.2 ++ [':'])).bind fun p3 =>
    Logged.offset date { d with tm_hour := hour, tm_min := min, tm_sec := sec } p3.1 p3.2
      (log ++ [(i, 2), (p1.1, 2), (p2.1, 2)])
  else some (d, s, log)

/-- Lines 90-109 with the log: the calls of lines 98, 104 and 107. -/
def Logged.calendar (date : List Char) (d : Tm) :
    Option (Tm × List Char × List (Nat × Nat)) :=
  (skipSpaces date 2).bind fun frm =>
  (scanDigits date frm).bind fun upto =>
  (ToInt date frm 4).bind fun year =>
  (if (upto : Int) - (frm : Int) > 12 then COPYN date ((upto : Int) - (frm : Int) - 10) frm []
   else COPYN date ((upto : Int) - (frm : Int) - 4) frm []).bind fun p0 =>
  (ToInt date p0.1 2).bind fun mon =>
  (COPYN date 2 p0.1 (p0.2 ++ ['/'])).bind fun p1 =>
  (ToInt date p1.1 2).bind fun mday =>
  (COPYN date 2 p1.1 (p1.2 ++ ['/'])).bind fun p2 =>
  Logged.clock date { d with tm_year := year - 1900, tm_mon := mon - 1, tm_mday := mday }
    p2.1 (p2.2 ++ [' ']) [(frm, 4), (p0.1, 2), (p1.1, 2)]

/-- `ToDate` with the log of the `ToInt` calls it has made, in the order of the calls. -/
def Logged.ToDate (mktime : Tm → Int) (d0 : Tm) (date : List Char) (time : Option Int) :
    Option (DateOut × List (Nat × Nat)) :=
  let d := memset d0 sizeofTm 0
  (dateMarker date).bind fun b =>
  if b then
    (Logged.calendar date d).bind fun r =>
    some ({ ret := .buffer r.2.1, time := time.map (fun _ => mktime r.1), d := r.1 }, r.2.2)
  else some ({ ret := .input, time := time, d := d }, [])

/-! ## Vocabulary of the specification -/

/-- All characters of the list are ASCII digits. -/
def isDigits (l : List Char) : Bool := l.all Char.isDigit

/-- Two decimal digits read as a number. -/
def num2 (a b : Char) : Int := 10 * digitVal a + digitVal b

/-- Four decimal digits read as a number. -/
def num4 (a b c e : Char) : Int :=
  1000 * digitVal a + 100 * digitVal b + 10 * digitVal c + digitVal e

/-- The longest run of ASCII digits that starts at `i` and has at most `n` characters. -/
def digitRun (s : List Char) (i n : Nat) : List Char :=
  ((s.drop i).take n).takeWhile Char.isDigit

/-- The number a digit string denotes in base ten; `0` for the empty string. -/
def decimalValue (l : List Char) : Int :=
  l.foldl (fun acc c => 10 * acc + digitVal c) 0

/-- The digits the logged `ToInt` calls consume: for a call `(i, n)` the length of the digit
run at `i` of at most `n` characters, summed over the calls. A digit read by two calls counts
twice. -/
def digitsConsumed (s : List Char) (log : List (Nat × Nat)) : Nat :=
  (log.map fun c => (digitRun s c.1 c.2).length).sum

/-- The offset group `OHH'mm'` in full. -/
def offsetGroup (l : List Char) : Bool :=
  match l with
  | [o, h1, h2, q1, m1, m2, q2] =>
    (o = '+' || o = '-' || o = 'Z') && isDigits [h1, h2, m1, m2] && q1 = APOS && q2 = APOS
  | _ => false

/-- The grammar of the specification, `D:YYYY[MM[DD[HH[mm[SS[OHH'mm']]]]]]`: the digit groups
in order, the offset group in full or absent. -/
def wellFormed (s : List Char) : Bool :=
  let body := s.drop 2
  let ds := body.takeWhile Char.isDigit
  let tl := body.dropWhile Char.isDigit
  s.take 2 = ['D', ':'] &&
    ((ds.length ∈ [4, 6, 8, 10, 12, 14] && tl = []) || (ds.length = 14 && offsetGroup tl))

/-- The inputs `D:`, spaces, `D:` again: what follows the marker restates it. -/
def reDated (x : List Char) : Bool :=
  x.take 2 = ['D', ':'] && (((x.drop 2).dropWhile (fun c => c = ' ')).take 2 = ['D', ':'])

/-- The string a returned pointer designates, given the input string. -/
def Ret.str (x : List Char) : Ret → List Char
  | .input => x
  | .buffer s => s

/-- `Weave xs ys zs`: the list `zs` is `xs` and `ys` interleaved, each kept in its order. -/
inductive Weave : List Char → List Char → List Char → Prop where
  | done : Weave [] [] []
  | left (a : Char) {xs ys zs : List Char} : Weave xs ys zs → Weave (a :: xs) ys (a :: zs)
  | right (b : Char) {xs ys zs : List Char} : Weave xs ys zs → Weave xs (b :: ys) (b :: zs)

/-- The separators `ToDate` writes, in the order it writes them. -/
def separators : List Char := ['/', '/', ' ', ':', ':', ' ', ':']

/-- A `struct tm` of zeros. -/
def tmZero : Tm := ⟨0, 0, 0, 0, 0, 0, 0, 0, 0, 0⟩

/-- A `struct tm` slot holding leftover stack content. -/
def tmStale : Tm := ⟨31, 41, 59, 26, 53, 58, 97, 93, 23, 84⟩

/-! ## Lemmas on the loops and on the blocks of `ToDate` -/

theorem isDigit_ne_NUL {c : Char} (h : c.isDigit = true) : c ≠ NUL := by
  rintro rfl; revert h; decide

theorem isDigit_ne_space {c : Char} (h : c.isDigit = true) : c ≠ ' ' := by
  rintro rfl; revert h; decide

theorem digitVal_nonneg {c : Char} (h : c.isDigit = true) : 0 ≤ digitVal c := by
  simp only [Char.isDigit, Bool.and_eq_true, decide_eq_true_eq, UInt32.le_def] at h
  have h1 := h.1
  simp only [digitVal, Char.toNat]
  have : (48 : Nat) ≤ c.val.toNat := h1
  have e : ('0' : Char).val.toNat = 48 := by decide
  rw [e]; omega

theorem digitVal_le {c : Char} (h : c.isDigit = true) : digitVal c ≤ 9 := by
  simp only [Char.isDigit, Bool.and_eq_true, decide_eq_true_eq, UInt32.le_def] at h
  have h1 := h.2
  simp only [digitVal, Char.toNat]
  have : c.val.toNat ≤ 57 := h1
  have e : ('0' : Char).val.toNat = 48 := by decide
  rw [e]; omega

theorem wrap32_of_fits {x : Int} (h0 : 0 ≤ x) (h1 : x < 2147483648) : wrap32 x = x := by
  unfold wrap32; omega

theorem rd_of_drop {date : List Char} {i : Nat} {a : Char} {r : List Char}
    (h : date.drop i = a :: r) : rd date i = some a := by
  have h2 : (date.drop i)[0]? = some a := by rw [h]; simp
  rw [List.getElem?_drop] at h2
  simpa [rd] using h2

theorem drop_succ_of_drop {date : List Char} {i : Nat} {a : Char} {r : List Char}
    (h : date.drop i = a :: r) : date.drop (i + 1) = r := by
  have h2 : date.drop (i + 1) = (date.drop i).drop 1 := by
    rw [List.drop_drop, Nat.add_comm]
  rw [h2, h]; rfl

theorem drop_add_of_drop {date : List Char} {i : Nat} (pre : List Char) {r : List Char}
    (h : date.drop i = pre ++ r) : date.drop (i + pre.length) = r := by
  have h2 : date.drop (i + pre.length) = (date.drop i).drop pre.length := by
    rw [List.drop_drop, Nat.add_comm]
  rw [h2, h, List.drop_left]

theorem ToInt_loop_NUL (rest : List Char) (n d : Int) : ToInt.loop (NUL :: rest) n d = some d := by
  simp [ToInt.loop]

theorem ToInt_loop_nondigit {c : Char} (h : c.isDigit = false) (rest : List Char) (n d : Int) :
    ToInt.loop (c :: rest) n d = some d := by
  simp [ToInt.loop, h]

theorem ToInt_loop_two {a b : Char} (ha : a.isDigit = true) (hb : b.isDigit = true)
    (rest : List Char) :
    ToInt.loop (a :: b :: rest) 2 0 = some (10 * digitVal a + digitVal b) := by
  have a0 := digitVal_nonneg ha; have a9 := digitVal_le ha
  have b0 := digitVal_nonneg hb; have b9 := digitVal_le hb
  have w1 : wrap32 (digitVal a) = digitVal a := wrap32_of_fits a0 (by omega)
  have w2 : wrap32 (10 * digitVal a + digitVal b) = 10 * digitVal a + digitVal b :=
    wrap32_of_fits (by omega) (by omega)
  cases rest <;>
    simp [ToInt.loop, ha, hb, isDigit_ne_NUL ha, isDigit_ne_NUL hb, w1, w2]

theorem ToInt_loop_four {a b c e : Char} (ha : a.isDigit = true) (hb : b.isDigit = true)
    (hc : c.isDigit = true) (he : e.isDigit = true) (rest : List Char) :
    ToInt.loop (a :: b :: c :: e :: rest) 4 0
      = some (1000 * digitVal a + 100 * digitVal b + 10 * digitVal c + digitVal e) := by
  have a0 := digitVal_nonneg ha; have a9 := digitVal_le ha
  have b0 := digitVal_nonneg hb; have b9 := digitVal_le hb
  have c0 := digitVal_nonneg hc; have c9 := digitVal_le hc
  have e0 := digitVal_nonneg he; have e9 := digitVal_le he
  have w1 : wrap32 (digitVal a) = digitVal a := wrap32_of_fits a0 (by omega)
  have w2 : wrap32 (10 * digitVal a + digitVal b) = 10 * digitVal a + digitVal b :=
    wrap32_of_fits (by omega) (by omega)
  have w3 : wrap32 (10 * (10 * digitVal a + digitVal b) + digitVal c)
      = 10 * (10 * digitVal a + digitVal b) + digitVal c :=
    wrap32_of_fits (by omega) (by omega)
  have w4 : wrap32 (10 * (10 * (10 * digitVal a + digitVal b) + digitVal c) + digitVal e)
      = 10 * (10 * (10 * digitVal a + digitVal b) + digitVal c) + digitVal e :=
    wrap32_of_fits (by omega) (by omega)
  have fin : 10 * (10 * (10 * digitVal a + digitVal b) + digitVal c) + digitVal e
      = 1000 * digitVal a + 100 * digitVal b + 10 * digitVal c + digitVal e := by ring
  rw [← fin]
  cases rest <;>
    simp [ToInt.loop, ha, hb, hc, he, isDigit_ne_NUL ha, isDigit_ne_NUL hb, isDigit_ne_NUL hc,
      isDigit_ne_NUL he, w1, w2, w3, w4]

theorem COPYN_loop_zero (rest : List Char) (i : Nat) (s : List Char) :
    COPYN.loop rest 0 i s = some (i, s) := by
  cases rest <;> simp [COPYN.loop]

theorem COPYN_loop_NUL (rest : List Char) (n : Int) (i : Nat) (s : List Char) :
    COPYN.loop (NUL :: rest) n i s = some (i, s) := by
  simp [COPYN.loop]

theorem COPYN_loop_cons {c : Char} (hc : c ≠ NUL) (rest : List Char) {n : Int} (hn : n ≠ 0)
    (i : Nat) (s : List Char) :
    COPYN.loop (c :: rest) n i s = COPYN.loop rest (n - 1) (i + 1) (s ++ [c]) := by
  simp [COPYN.loop, hc, hn]

theorem COPYN_loop_two {a b : Char} (ha : a ≠ NUL) (hb : b ≠ NUL) (rest : List Char)
    (i : Nat) (s : List Char) :
    COPYN.loop (a :: b :: rest) 2 i s = some (i + 2, s ++ [a, b]) := by
  rw [COPYN_loop_cons ha _ (by decide), COPYN_loop_cons hb _ (by decide)]
  simp [COPYN_loop_zero]

theorem COPYN_loop_four {a b c e : Char} (ha : a ≠ NUL) (hb : b ≠ NUL) (hc : c ≠ NUL)
    (he : e ≠ NUL) (rest : List Char) (i : Nat) (s : List Char) :
    COPYN.loop (a :: b :: c :: e :: rest) 4 i s = some (i + 4, s ++ [a, b, c, e]) := by
  rw [COPYN_loop_cons ha _ (by decide), COPYN_loop_cons hb _ (by decide),
    COPYN_loop_cons hc _ (by decide), COPYN_loop_cons he _ (by decide)]
  simp [COPYN_loop_zero]

theorem ToInt_of_drop {date : List Char} {i : Nat} {r : List Char} (h : date.drop i = r)
    (n : Int) : ToInt date i n = ToInt.loop r n 0 := by
  rw [ToInt, h]

theorem COPYN_of_drop {date : List Char} {i : Nat} {r : List Char} (h : date.drop i = r)
    (N : Int) (s : List Char) : COPYN date N i s = COPYN.loop r N i s := by
  rw [COPYN, h]

theorem scanDigits_loop_run (ds : List Char) (hds : ∀ c ∈ ds, c.isDigit = true) (c : Char)
    (hc : c.isDigit = false) (rest : List Char) (i : Nat) :
    scanDigits.loop (ds ++ c :: rest) i = some (i + ds.length) := by
  induction ds generalizing i with
  | nil => simp [scanDigits.loop, hc]
  | cons a ds ih =>
    have ha : a.isDigit = true := hds a (by simp)
    have ih2 := ih (fun x hx => hds x (by simp [hx])) (i + 1)
    have step : scanDigits.loop (a :: (ds ++ c :: rest)) i
        = scanDigits.loop (ds ++ c :: rest) (i + 1) := by
      simp [scanDigits.loop, ha, isDigit_ne_NUL ha]
    rw [List.cons_append, step, ih2, List.length_cons, Nat.add_assoc, Nat.add_comm 1]

theorem skipSpaces_loop_stop {c : Char} (hc : c ≠ ' ') (rest : List Char) (i : Nat) :
    skipSpaces.loop (c :: rest) i = some i := by
  simp [skipSpaces.loop, hc]

/-- The offset block on a sign character, two hour digits, a delimiter and two minute digits. -/
theorem offset_full {date : List Char} {i : Nat} {c h1 h2 q m1 m2 : Char} {rest : List Char}
    (hd : date.drop i = c :: h1 :: h2 :: q :: m1 :: m2 :: rest) (hc : c ≠ NUL)
    (hh1 : h1.isDigit = true) (hh2 : h2.isDigit = true) (hm1 : m1.isDigit = true)
    (hm2 : m2.isDigit = true) (d : Tm) (s : List Char) :
    ToDate.offset date d i s =
      some ({ d with tm_gmtoff := ((10 * digitVal h1 + digitVal h2) * 3600
                + (10 * digitVal m1 + digitVal m2) * 60) * (if c = '-' then -1 else 1) },
            s ++ [' ', c, h1, h2, ':', m1, m2]) := by
  have e1 := drop_succ_of_drop hd
  have e4 := drop_add_of_drop [h1, h2, q] (r := m1 :: m2 :: rest) e1
  simp only [List.length_cons, List.length_nil] at e4
  have e4b : date.drop (i + 1 + 2 + 1) = m1 :: m2 :: rest := e4
  unfold ToDate.offset
  rw [rd_of_drop hd]
  simp only [Option.bind, hc, ne_eq, not_false_eq_true, if_true]
  rw [ToInt_of_drop e1, ToInt_loop_two hh1 hh2, COPYN_of_drop e1,
    COPYN_loop_two (isDigit_ne_NUL hh1) (isDigit_ne_NUL hh2)]
  simp only []
  rw [ToInt_of_drop e4b, ToInt_loop_two hm1 hm2, COPYN_of_drop e4b,
    COPYN_loop_two (isDigit_ne_NUL hm1) (isDigit_ne_NUL hm2)]
  simp

/-- The offset block when the string has ended. -/
theorem offset_end {date : List Char} {i : Nat} {rest : List Char}
    (hd : date.drop i = NUL :: rest) (d : Tm) (s : List Char) :
    ToDate.offset date d i s = some (d, s) := by
  unfold ToDate.offset
  rw [rd_of_drop hd]
  simp [Option.bind]

/-- The time-of-day block on six digits. -/
theorem clock_full {date : List Char} {i : Nat} {H1 H2 M1 M2 S1 S2 : Char} {rest : List Char}
    (hd : date.drop i = H1 :: H2 :: M1 :: M2 :: S1 :: S2 :: rest)
    (hH1 : H1.isDigit = true) (hH2 : H2.isDigit = true) (hM1 : M1.isDigit = true)
    (hM2 : M2.isDigit = true) (hS1 : S1.isDigit = true) (hS2 : S2.isDigit = true)
    (d : Tm) (s : List Char) :
    ToDate.clock date d i s =
      ToDate.offset date
        { d with tm_hour := 10 * digitVal H1 + digitVal H2,
                 tm_min := 10 * digitVal M1 + digitVal M2,
                 tm_sec := 10 * digitVal S1 + digitVal S2 }
        (i + 6) (s ++ [H1, H2, ':', M1, M2, ':', S1, S2]) := by
  have e2 : date.drop (i + 2) = M1 :: M2 :: S1 :: S2 :: rest :=
    drop_add_of_drop [H1, H2] hd
  have e4 : date.drop (i + 2 + 2) = S1 :: S2 :: rest := drop_add_of_drop [M1, M2] e2
  unfold ToDate.clock
  rw [rd_of_drop hd]
  simp only [Option.bind, isDigit_ne_NUL hH1, ne_eq, not_false_eq_true, if_true]
  rw [ToInt_of_drop hd, ToInt_loop_two hH1 hH2, COPYN_of_drop hd,
    COPYN_loop_two (isDigit_ne_NUL hH1) (isDigit_ne_NUL hH2)]
  simp only []
  rw [ToInt_of_drop e2, ToInt_loop_two hM1 hM2, COPYN_of_drop e2,
    COPYN_loop_two (isDigit_ne_NUL hM1) (isDigit_ne_NUL hM2)]
  simp only []
  rw [ToInt_of_drop e4, ToInt_loop_two hS1 hS2, COPYN_of_drop e4,
    COPYN_loop_two (isDigit_ne_NUL hS1) (isDigit_ne_NUL hS2)]
  simp

/-- The time-of-day block when the string has ended. -/
theorem clock_end {date : List Char} {i : Nat} {rest : List Char}
    (hd : date.drop i = NUL :: rest) (d : Tm) (s : List Char) :
    ToDate.clock date d i s = some (d, s) := by
  unfold ToDate.clock
  rw [rd_of_drop hd]
  simp [Option.bind]

theorem COPYN_loop_run (p : List Char) (hp : ∀ c ∈ p, c ≠ NUL) (rest : List Char) (i : Nat)
    (s : List Char) :
    COPYN.loop (p ++ rest) (p.length : Int) i s = some (i + p.length, s ++ p) := by
  induction p generalizing i s with
  | nil => simp [COPYN_loop_zero]
  | cons a p ih =>
    have ha : a ≠ NUL := hp a (by simp)
    have hn : ((a :: p).length : Int) ≠ 0 := by simp; omega
    rw [List.cons_append, COPYN_loop_cons ha _ hn]
    have e : ((a :: p).length : Int) - 1 = (p.length : Int) := by simp
    rw [e, ih (fun x hx => hp x (by simp [hx]))]
    simp; omega

/-- The calendar block on a digit run: `p` is what the year copy takes, then month and day. -/
theorem calendar_digits {date : List Char} {p : List Char} {a b c e : Char} {rest : List Char}
    (hd : date.drop 2 = p ++ a :: b :: c :: e :: rest)
    (hp : ∀ x ∈ p, x.isDigit = true)
    (ha : a.isDigit = true) (hb : b.isDigit = true) (hc : c.isDigit = true)
    (he : e.isDigit = true)
    {upto : Nat} (hupto : scanDigits.loop (date.drop 2) 2 = some upto)
    (hN : (if (upto : Int) - ((2 : Nat) : Int) > 12 then (upto : Int) - ((2 : Nat) : Int) - 10
            else (upto : Int) - ((2 : Nat) : Int) - 4) = (p.length : Int))
    {y : Int} (hy : ToInt.loop (date.drop 2) 4 0 = some y) (d : Tm) :
    ToDate.calendar date d =
      ToDate.clock date
        { d with tm_year := y - 1900,
                 tm_mon := 10 * digitVal a + digitVal b - 1,
                 tm_mday := 10 * digitVal c + digitVal e }
        (2 + p.length + 4) (p ++ ['/', a, b, '/', c, e, ' ']) := by
  have hsp : skipSpaces date 2 = some 2 := by
    unfold skipSpaces
    rw [hd]
    cases p with
    | nil => exact skipSpaces_loop_stop (isDigit_ne_space ha) _ _
    | cons x p => exact skipSpaces_loop_stop (isDigit_ne_space (hp x (by simp))) _ _
  have e1 : date.drop (2 + p.length) = a :: b :: c :: e :: rest := drop_add_of_drop p hd
  have e2 : date.drop (2 + p.length + 2) = c :: e :: rest := drop_add_of_drop [a, b] e1
  have hcopy : (if (upto : Int) - ((2 : Nat) : Int) > 12 then
        COPYN date ((upto : Int) - ((2 : Nat) : Int) - 10) 2 []
      else COPYN date ((upto : Int) - ((2 : Nat) : Int) - 4) 2 [])
      = some (2 + p.length, p) := by
    have h1 : ∀ N : Int, N = (p.length : Int) → COPYN date N 2 [] = some (2 + p.length, p) := by
      intro N hNe
      rw [hNe, COPYN, hd, COPYN_loop_run p (fun x hx => isDigit_ne_NUL (hp x hx))]
      simp
    split
    · rename_i hgt; rw [if_pos hgt] at hN; exact h1 _ hN
    · rename_i hgt; rw [if_neg hgt] at hN; exact h1 _ hN
  unfold ToDate.calendar
  rw [hsp]
  simp only [Option.bind]
  rw [scanDigits, hupto]
  simp only []
  rw [ToInt, hy]
  simp only []
  rw [hcopy]
  simp only []
  rw [ToInt_of_drop e1, ToInt_loop_two ha hb, COPYN_of_drop e1,
    COPYN_loop_two (isDigit_ne_NUL ha) (isDigit_ne_NUL hb)]
  simp only []
  rw [ToInt_of_drop e2, ToInt_loop_two hc he, COPYN_of_drop e2,
    COPYN_loop_two (isDigit_ne_NUL hc) (isDigit_ne_NUL he)]
  simp

theorem memset_zero (d : Tm) (c : Nat) : memset d c 0 = d := by
  simp [memset]

theorem dateMarker_D_colon (rest : List Char) : dateMarker ('D' :: ':' :: rest) = some true := by
  simp [dateMarker, rd]

/-- Full form: 14 digits, a sign character, `hh`, a delimiter, `mm`, then anything. -/
theorem ToDate_full (mktime : Tm → Int) (d0 : Tm) (time : Option Int)
    (y1 y2 y3 y4 m1 m2 d1 d2 H1 H2 M1 M2 S1 S2 c h1 h2 q o1 o2 : Char) (tail : List Char)
    (hdig : isDigits [y1, y2, y3, y4, m1, m2, d1, d2, H1, H2, M1, M2, S1, S2, h1, h2, o1, o2]
      = true)
    (hc0 : c ≠ NUL) (hc : c.isDigit = false) :
    ToDate mktime d0
      ('D' :: ':' :: y1 :: y2 :: y3 :: y4 :: m1 :: m2 :: d1 :: d2 :: H1 :: H2 :: M1 :: M2 :: S1
        :: S2 :: c :: h1 :: h2 :: q :: o1 :: o2 :: tail) time
    = some
        { ret := .buffer [y1, y2, y3, y4, '/', m1, m2, '/', d1, d2, ' ', H1, H2, ':', M1, M2, ':',
                          S1, S2, ' ', c, h1, h2, ':', o1, o2],
          time := time.map (fun _ => mktime
            { d0 with tm_year := num4 y1 y2 y3 y4 - 1900, tm_mon := num2 m1 m2 - 1,
                      tm_mday := num2 d1 d2, tm_hour := num2 H1 H2, tm_min := num2 M1 M2,
                      tm_sec := num2 S1 S2,
                      tm_gmtoff := (num2 h1 h2 * 3600 + num2 o1 o2 * 60)
                        * (if c = '-' then -1 else 1) }),
          d :=
            { d0 with tm_year := num4 y1 y2 y3 y4 - 1900, tm_mon := num2 m1 m2 - 1,
                      tm_mday := num2 d1 d2, tm_hour := num2 H1 H2, tm_min := num2 M1 M2,
                      tm_sec := num2 S1 S2,
                      tm_gmtoff := (num2 h1 h2 * 3600 + num2 o1 o2 * 60)
                        * (if c = '-' then -1 else 1) } } := by
  simp only [isDigits, List.all_cons, List.all_nil, Bool.and_true, Bool.and_eq_true] at hdig
  obtain ⟨hy1, hy2, hy3, hy4, hm1, hm2, hd1, hd2, hH1, hH2, hM1, hM2, hS1, hS2, hh1, hh2, ho1,
    ho2⟩ := hdig
  generalize hdate : ('D' :: ':' :: y1 :: y2 :: y3 :: y4 :: m1 :: m2 :: d1 :: d2 :: H1 :: H2 :: M1
    :: M2 :: S1 :: S2 :: c :: h1 :: h2 :: q :: o1 :: o2 :: tail) = date
  have hpre : dateMarker date = some true := by rw [← hdate]; exact dateMarker_D_colon _
  have e2 : date.drop 2 = [y1, y2, y3, y4] ++ m1 :: m2 :: d1 :: d2 :: H1 :: H2 :: M1 :: M2
      :: S1 :: S2 :: c :: h1 :: h2 :: q :: o1 :: o2 :: tail := by rw [← hdate]; rfl
  have e10 : date.drop 10 = H1 :: H2 :: M1 :: M2 :: S1 :: S2 :: c :: h1 :: h2 :: q :: o1 :: o2
      :: tail := by rw [← hdate]; rfl
  have e16 : date.drop 16 = c :: h1 :: h2 :: q :: o1 :: o2 :: tail := by rw [← hdate]; rfl
  have hupto : scanDigits.loop (date.drop 2) 2 = some 16 := by
    rw [← hdate]
    exact scanDigits_loop_run [y1, y2, y3, y4, m1, m2, d1, d2, H1, H2, M1, M2, S1, S2] (by
      intro x hx
      simp only [List.mem_cons, List.mem_singleton, List.not_mem_nil, or_false] at hx
      rcases hx with h | h | h | h | h | h | h | h | h | h | h | h | h | h <;> rw [h] <;>
        assumption) c hc _ 2
  have hy : ToInt.loop (date.drop 2) 4 0 = some (num4 y1 y2 y3 y4) := by
    rw [e2]; exact ToInt_loop_four hy1 hy2 hy3 hy4 _
  unfold ToDate
  rw [hpre, memset_zero]
  simp only [Option.bind, if_true]
  rw [calendar_digits e2 (by
        intro x hx
        simp only [List.mem_cons, List.mem_singleton, List.not_mem_nil, or_false] at hx
        rcases hx with h | h | h | h <;> rw [h] <;> assumption)
      hm1 hm2 hd1 hd2 hupto (by simp) hy]
  simp only [List.length_cons, List.length_nil, Nat.reduceAdd]
  rw [clock_full e10 hH1 hH2 hM1 hM2 hS1 hS2]
  simp only [Nat.reduceAdd]
  rw [offset_full e16 hc0 hh1 hh2 ho1 ho2]
  simp [num2, num4]

theorem ToInt_loop_some (xs tail : List Char) (n d : Int) :
    ∃ v, ToInt.loop (xs ++ NUL :: tail) n d = some v := by
  induction xs generalizing n d with
  | nil => exact ⟨d, by simp [ToInt.loop]⟩
  | cons a xs ih =>
    rw [List.cons_append, ToInt.loop]
    split
    · exact ⟨d, rfl⟩
    · split
      · exact ih _ _
      · exact ⟨d, rfl⟩

/-- Digits only, at most twelve of them: the last four are month and day, what precedes them
is copied as the year, and the string ends before a time of day. -/
theorem ToDate_short (mktime : Tm → Int) (d0 : Tm) (time : Option Int) (p : List Char)
    (a b c e : Char) (hp : ∀ x ∈ p, x.isDigit = true) (hlen : p.length ≤ 8)
    (ha : a.isDigit = true) (hb : b.isDigit = true) (hc : c.isDigit = true)
    (he : e.isDigit = true) :
    ∃ y : Int, ToDate mktime d0 (cstr ('D' :: ':' :: (p ++ [a, b, c, e]))) time
      = some
          { ret := .buffer (p ++ ['/', a, b, '/', c, e, ' ']),
            time := time.map (fun _ => mktime
              { d0 with tm_year := y - 1900, tm_mon := num2 a b - 1, tm_mday := num2 c e }),
            d := { d0 with tm_year := y - 1900, tm_mon := num2 a b - 1,
                           tm_mday := num2 c e } } := by
  generalize hdate : cstr ('D' :: ':' :: (p ++ [a, b, c, e])) = date
  have hpre : dateMarker date = some true := by rw [← hdate]; exact dateMarker_D_colon _
  have e2 : date.drop 2 = p ++ a :: b :: c :: e :: [NUL] := by
    rw [← hdate]; simp [cstr]
  have e2b : date.drop 2 = (p ++ [a, b, c, e]) ++ NUL :: [] := by
    rw [e2]; simp
  have hupto : scanDigits.loop (date.drop 2) 2 = some (2 + (p ++ [a, b, c, e]).length) := by
    rw [e2b]
    exact scanDigits_loop_run (p ++ [a, b, c, e]) (by
      intro x hx
      simp only [List.mem_append, List.mem_cons, List.mem_singleton, List.not_mem_nil,
        or_false] at hx
      rcases hx with h | h | h | h | h
      · exact hp x h
      all_goals (rw [h]; assumption)) NUL (by decide) [] 2
  obtain ⟨y, hy⟩ := ToInt_loop_some (p ++ [a, b, c, e]) [] 4 0
  rw [← e2b] at hy
  have e6 : date.drop (2 + p.length + 4) = [NUL] := by
    have h1 := drop_add_of_drop p e2
    exact drop_add_of_drop [a, b, c, e] h1
  refine ⟨y, ?_⟩
  unfold ToDate
  rw [hpre, memset_zero]
  simp only [Option.bind, if_true]
  rw [calendar_digits e2 hp ha hb hc he hupto (by
        simp only [List.length_append, List.length_cons, List.length_nil]
        push_cast
        split <;> omega) hy]
  rw [clock_end e6]
  simp [num2]

/-- Fourteen digits and nothing after them. -/
theorem ToDate_digits14 (mktime : Tm → Int) (d0 : Tm) (time : Option Int)
    (y1 y2 y3 y4 m1 m2 d1 d2 H1 H2 M1 M2 S1 S2 : Char)
    (hdig : isDigits [y1, y2, y3, y4, m1, m2, d1, d2, H1, H2, M1, M2, S1, S2] = true) :
    ToDate mktime d0
      (cstr ['D', ':', y1, y2, y3, y4, m1, m2, d1, d2, H1, H2, M1, M2, S1, S2]) time
    = some
        { ret := .buffer [y1, y2, y3, y4, '/', m1, m2, '/', d1, d2, ' ', H1, H2, ':', M1, M2, ':',
                          S1, S2],
          time := time.map (fun _ => mktime
            { d0 with tm_year := num4 y1 y2 y3 y4 - 1900, tm_mon := num2 m1 m2 - 1,
                      tm_mday := num2 d1 d2, tm_hour := num2 H1 H2, tm_min := num2 M1 M2,
                      tm_sec := num2 S1 S2 }),
          d :=
            { d0 with tm_year := num4 y1 y2 y3 y4 - 1900, tm_mon := num2 m1 m2 - 1,
                      tm_mday := num2 d1 d2, tm_hour := num2 H1 H2, tm_min := num2 M1 M2,
                      tm_sec := num2 S1 S2 } } := by
  simp only [isDigits, List.all_cons, List.all_nil, Bool.and_true, Bool.and_eq_true] at hdig
  obtain ⟨hy1, hy2, hy3, hy4, hm1, hm2, hd1, hd2, hH1, hH2, hM1, hM2, hS1, hS2⟩ := hdig
  generalize hdate :
    cstr ['D', ':', y1, y2, y3, y4, m1, m2, d1, d2, H1, H2, M1, M2, S1, S2] = date
  have hpre : dateMarker date = some true := by rw [← hdate]; exact dateMarker_D_colon _
  have e2 : date.drop 2 = [y1, y2, y3, y4] ++ m1 :: m2 :: d1 :: d2 :: H1 :: H2 :: M1 :: M2
      :: S1 :: S2 :: [NUL] := by rw [← hdate]; rfl
  have e10 : date.drop 10 = H1 :: H2 :: M1 :: M2 :: S1 :: S2 :: [NUL] := by rw [← hdate]; rfl
  have e16 : date.drop 16 = NUL :: [] := by rw [← hdate]; rfl
  have hupto : scanDigits.loop (date.drop 2) 2 = some 16 := by
    rw [← hdate]
    exact scanDigits_loop_run [y1, y2, y3, y4, m1, m2, d1, d2, H1, H2, M1, M2, S1, S2] (by
      intro x hx
      simp only [List.mem_cons, List.mem_singleton, List.not_mem_nil, or_false] at hx
      rcases hx with h | h | h | h | h | h | h | h | h | h | h | h | h | h <;> rw [h] <;>
        assumption) NUL (by decide) [] 2
  have hy : ToInt.loop (date.drop 2) 4 0 = some (num4 y1 y2 y3 y4) := by
    rw [e2]; exact ToInt_loop_four hy1 hy2 hy3 hy4 _
  unfold ToDate
  rw [hpre, memset_zero]
  simp only [Option.bind, if_true]
  rw [calendar_digits e2 (by
        intro x hx
        simp only [List.mem_cons, List.mem_singleton, List.not_mem_nil, or_false] at hx
        rcases hx with h | h | h | h <;> rw [h] <;> assumption)
      hm1 hm2 hd1 hd2 hupto (by simp) hy]
  simp only [List.length_cons, List.length_nil, Nat.reduceAdd]
  rw [clock_full e10 hH1 hH2 hM1 hM2 hS1 hS2]
  simp only [Nat.reduceAdd]
  rw [offset_end e16]
  simp [num2, num4]

theorem dateMarker_terminated (s rest : List Char) :
    dateMarker (s ++ NUL :: rest) = some (decide (s.take 2 = ['D', ':'])) := by
  rcases s with _ | ⟨c0, _ | ⟨c1, r⟩⟩
  · simp [dateMarker, rd, NUL]
  · by_cases h0 : c0 = 'D' <;> simp [dateMarker, rd, NUL, h0]
  · by_cases h0 : c0 = 'D' <;> simp [dateMarker, rd, h0]

theorem dateMarker_cstr (s : List Char) :
    dateMarker (cstr s) = some (decide (s.take 2 = ['D', ':'])) :=
  dateMarker_terminated s []

theorem ToDate_unmarked_terminated (mktime : Tm → Int) (d0 : Tm) (s rest : List Char)
    (time : Option Int) (h : s.take 2 ≠ ['D', ':']) :
    ToDate mktime d0 (s ++ NUL :: rest) time = some { ret := .input, time := time, d := d0 } := by
  unfold ToDate
  rw [dateMarker_terminated, memset_zero]
  simp [h]

theorem ToDate_unmarked (mktime : Tm → Int) (d0 : Tm) (s : List Char) (time : Option Int)
    (h : s.take 2 ≠ ['D', ':']) :
    ToDate mktime d0 (cstr s) time = some { ret := .input, time := time, d := d0 } :=
  ToDate_unmarked_terminated mktime d0 s [] time h

theorem eq_cons_cons_of_take_two {x : List Char} {a b : Char} (h : x.take 2 = [a, b]) :
    x = a :: b :: x.drop 2 := by
  have h1 := List.take_append_drop 2 x
  rw [h] at h1
  exact h1.symm

theorem foldl_digits_mono (l : List Char) (hl : ∀ c ∈ l, c.isDigit = true) (d : Int)
    (hd : 0 ≤ d) : d ≤ l.foldl (fun acc c => 10 * acc + digitVal c) d := by
  induction l generalizing d with
  | nil => simp
  | cons a l ih =>
    have ha := digitVal_nonneg (hl a (by simp))
    have h1 := ih (fun x hx => hl x (by simp [hx])) (10 * d + digitVal a) (by omega)
    simp only [List.foldl_cons]
    omega

theorem foldl_digits_lt_pow (l : List Char) (hl : ∀ c ∈ l, c.isDigit = true) (d : Int)
    (hd : 0 ≤ d) :
    l.foldl (fun acc c => 10 * acc + digitVal c) d + 1 ≤ (d + 1) * 10 ^ l.length := by
  induction l generalizing d with
  | nil => simp
  | cons a l ih =>
    have ha0 := digitVal_nonneg (hl a (by simp))
    have ha9 := digitVal_le (hl a (by simp))
    have h1 := ih (fun x hx => hl x (by simp [hx])) (10 * d + digitVal a) (by omega)
    simp only [List.foldl_cons, List.length_cons]
    have hpow : (0 : Int) ≤ 10 ^ l.length := by positivity
    have h2 : (10 * d + digitVal a + 1) * 10 ^ l.length ≤ (10 * d + 10) * 10 ^ l.length :=
      mul_le_mul_of_nonneg_right (by omega) hpow
    have h3 : (10 * d + 10) * 10 ^ l.length = (d + 1) * 10 ^ (l.length + 1) := by ring
    linarith

theorem digitRun_digits (s : List Char) (i n : Nat) : ∀ c ∈ digitRun s i n, c.isDigit = true := by
  intro c hc
  exact List.mem_takeWhile_imp hc

theorem digitRun_length_le (s : List Char) (i n : Nat) : (digitRun s i n).length ≤ n := by
  unfold digitRun
  calc (List.takeWhile Char.isDigit (List.take n (List.drop i s))).length
      ≤ (List.take n (List.drop i s)).length := (List.takeWhile_sublist _).length_le
    _ ≤ n := List.length_take_le _ _

theorem decimalValue_of_short (s : List Char) (i n : Nat) (hn : n ≤ 9) :
    decimalValue (digitRun s i n) ≤ 2147483647 := by
  have h1 := foldl_digits_lt_pow (digitRun s i n) (digitRun_digits s i n) 0 (le_refl _)
  have h2 : (10 : Int) ^ (digitRun s i n).length ≤ 10 ^ 9 :=
    pow_le_pow_right₀ (by norm_num) (le_trans (digitRun_length_le s i n) hn)
  unfold decimalValue
  norm_num at h1 h2 ⊢
  omega

theorem ToInt_loop_run (xs : List Char) (n : Nat) (d : Int) (hd : 0 ≤ d)
    (hfit : ((xs.take n).takeWhile Char.isDigit).foldl (fun acc c => 10 * acc + digitVal c) d
      ≤ 2147483647) :
    ToInt.loop (xs ++ [NUL]) (n : Int) d
      = some (((xs.take n).takeWhile Char.isDigit).foldl
          (fun acc c => 10 * acc + digitVal c) d) := by
  induction xs generalizing n d with
  | nil => simp [ToInt.loop]
  | cons a xs ih =>
    cases n with
    | zero => simp [ToInt.loop]
    | succ m =>
      have hn : ((m + 1 : Nat) : Int) ≠ 0 := by omega
      have hn1 : ((m + 1 : Nat) : Int) - 1 = (m : Int) := by omega
      by_cases ha : a.isDigit = true
      · simp only [List.take_succ_cons, List.takeWhile_cons, ha, if_true, List.foldl_cons]
          at hfit ⊢
        have ha0 := digitVal_nonneg ha
        have hmono := foldl_digits_mono ((xs.take m).takeWhile Char.isDigit)
          (fun c hc => List.mem_takeWhile_imp hc) (10 * d + digitVal a) (by omega)
        have hw : wrap32 (10 * d + digitVal a) = 10 * d + digitVal a :=
          wrap32_of_fits (by omega) (by omega)
        rw [List.cons_append, ToInt.loop, if_neg hn, if_pos ⟨isDigit_ne_NUL ha, ha⟩, hn1, hw]
        exact ih m _ (by omega) hfit
      · have ha2 : a.isDigit = false := by simpa using ha
        simp only [List.take_succ_cons, List.takeWhile_cons, ha2, List.foldl_nil]
        rw [List.cons_append, ToInt.loop, if_neg hn, if_neg (by simp [ha2])]
        simp

theorem exists_four_of_length (l : List Char) (h : l.length = 4) :
    ∃ a b c e, l = [a, b, c, e] := by
  rcases l with _ | ⟨a, _ | ⟨b, _ | ⟨c, _ | ⟨e, _ | ⟨z, t⟩⟩⟩⟩⟩ <;> simp at h
  exact ⟨a, b, c, e, rfl⟩

theorem exists_seven_of_length (l : List Char) (h : l.length = 7) :
    ∃ a b c e f g k, l = [a, b, c, e, f, g, k] := by
  rcases l with _ | ⟨a, _ | ⟨b, _ | ⟨c, _ | ⟨e, _ | ⟨f, _ | ⟨g, _ | ⟨k, _ | ⟨z, t⟩⟩⟩⟩⟩⟩⟩⟩ <;>
    simp at h
  exact ⟨a, b, c, e, f, g, k, rfl⟩

theorem exists_fourteen_of_length (l : List Char) (h : l.length = 14) :
    ∃ a1 a2 a3 a4 a5 a6 a7 a8 a9 a10 a11 a12 a13 a14, l = [a1, a2, a3, a4, a5, a6, a7, a8, a9, a10, a11, a12, a13, a14] := by
  rcases l with _ | ⟨a1, _ | ⟨a2, _ | ⟨a3, _ | ⟨a4, _ | ⟨a5, _ | ⟨a6, _ | ⟨a7, _ | ⟨a8, _ | ⟨a9, _ | ⟨a10, _ | ⟨a11, _ | ⟨a12, _ | ⟨a13, _ | ⟨a14, _ | ⟨z, t⟩⟩⟩⟩⟩⟩⟩⟩⟩⟩⟩⟩⟩⟩⟩ <;>
    simp at h
  exact ⟨a1, a2, a3, a4, a5, a6, a7, a8, a9, a10, a11, a12, a13, a14, rfl⟩

theorem exists_last_four (l : List Char) (h : 4 ≤ l.length) :
    ∃ p a b c e, l = p ++ [a, b, c, e] ∧ p.length + 4 = l.length := by
  have hsplit : l = l.take (l.length - 4) ++ l.drop (l.length - 4) :=
    (List.take_append_drop _ l).symm
  have hlen : (l.drop (l.length - 4)).length = 4 := by
    rw [List.length_drop]; omega
  obtain ⟨a, b, c, e, habce⟩ := exists_four_of_length _ hlen
  refine ⟨l.take (l.length - 4), a, b, c, e, ?_, ?_⟩
  · rw [← habce]; exact hsplit
  · rw [List.length_take]; omega

theorem offsetGroup_shape (l : List Char) (h : offsetGroup l = true) :
    ∃ o h1 h2 m1 m2, l = [o, h1, h2, APOS, m1, m2, APOS] ∧ (o = '+' ∨ o = '-' ∨ o = 'Z') ∧
      isDigits [h1, h2, m1, m2] = true := by
  rcases l with _ | ⟨o, _ | ⟨h1, _ | ⟨h2, _ | ⟨q1, _ | ⟨m1, _ | ⟨m2, _ | ⟨q2, _ | ⟨z, t⟩⟩⟩⟩⟩⟩⟩⟩ <;>
    simp only [offsetGroup, Bool.false_eq_true] at h
  simp only [Bool.and_eq_true, Bool.or_eq_true, decide_eq_true_eq] at h
  obtain ⟨⟨⟨ho, hd⟩, hq1⟩, hq2⟩ := h
  refine ⟨o, h1, h2, m1, m2, ?_, ?_, hd⟩
  · rw [hq1, hq2]
  · tauto

theorem countP_digits_eq_length (l : List Char) (hl : ∀ c ∈ l, c.isDigit = true) :
    l.countP Char.isDigit = l.length :=
  List.countP_eq_length.2 hl

/-! ### The loops on a buffer whose terminator is followed by a NUL byte -/

theorem COPYN_loop_spec (xs tail : List Char) (N : Int) (i : Nat) (out : List Char) :
    ∃ k, k ≤ xs.length ∧
      COPYN.loop (xs ++ NUL :: tail) N i out = some (i + k, out ++ xs.take k) := by
  induction xs generalizing N i out with
  | nil =>
    refine ⟨0, le_refl _, ?_⟩
    by_cases hN : N = 0 <;> simp [COPYN.loop, hN]
  | cons a xs ih =>
    by_cases hN : N = 0
    · exact ⟨0, Nat.zero_le _, by simp [COPYN.loop, hN]⟩
    · by_cases ha : a = NUL
      · exact ⟨0, Nat.zero_le _, by simp [COPYN.loop, hN, ha]⟩
      · obtain ⟨k, hk, hloop⟩ := ih (N - 1) (i + 1) (out ++ [a])
        refine ⟨k + 1, by simpa using hk, ?_⟩
        rw [List.cons_append, COPYN_loop_cons ha _ hN, hloop]
        simp [Nat.add_assoc, Nat.add_comm 1 k]

theorem skipSpaces_loop_spec (xs tail : List Char) (i : Nat) :
    skipSpaces.loop (xs ++ NUL :: tail) i
      = some (i + (xs.takeWhile (fun c => c = ' ')).length) := by
  induction xs generalizing i with
  | nil => simp [skipSpaces.loop, NUL]
  | cons a xs ih =>
    by_cases ha : a = ' '
    · rw [List.cons_append, skipSpaces.loop, if_pos ha, ih]
      simp [ha, Nat.add_assoc, Nat.add_comm 1]
    · rw [List.cons_append, skipSpaces.loop, if_neg ha]
      simp [ha]

theorem scanDigits_loop_spec (xs tail : List Char) (i : Nat) :
    ∃ k, k ≤ xs.length ∧ scanDigits.loop (xs ++ NUL :: tail) i = some (i + k) := by
  induction xs generalizing i with
  | nil => exact ⟨0, le_refl _, by simp [scanDigits.loop]⟩
  | cons a xs ih =>
    by_cases ha : a ≠ NUL ∧ a.isDigit = true
    · obtain ⟨k, hk, hloop⟩ := ih (i + 1)
      refine ⟨k + 1, by simpa using hk, ?_⟩
      rw [List.cons_append, scanDigits.loop, if_pos ha, hloop]
      simp [Nat.add_assoc, Nat.add_comm 1 k]
    · exact ⟨0, Nat.zero_le _, by rw [List.cons_append, scanDigits.loop, if_neg ha]; rfl⟩

theorem drop_pad (s junk : List Char) {i : Nat} (hi : i ≤ s.length) :
    (s ++ NUL :: NUL :: junk).drop i = s.drop i ++ NUL :: NUL :: junk :=
  List.drop_append_of_le_length hi

theorem drop_pad_succ (s junk : List Char) {i : Nat} (hi : i ≤ s.length + 1) :
    (s ++ NUL :: NUL :: junk).drop i = (s ++ [NUL]).drop i ++ NUL :: junk := by
  have h : s ++ NUL :: NUL :: junk = (s ++ [NUL]) ++ NUL :: junk := by simp
  rw [h]
  exact List.drop_append_of_le_length (by simpa using hi)

theorem rd_pad (s junk : List Char) {i : Nat} (hi : i ≤ s.length) :
    ∃ c, rd (s ++ NUL :: NUL :: junk) i = some c ∧
      (c ≠ NUL → i < s.length ∧ s.drop i = c :: s.drop (i + 1)) := by
  rcases Nat.lt_or_ge i s.length with h | h
  · refine ⟨s[i], ?_, fun _ => ⟨h, List.drop_eq_getElem_cons h⟩⟩
    simp [rd, List.getElem?_append_left h]
  · have hieq : i = s.length := le_antisymm hi h
    refine ⟨NUL, ?_, fun hc => absurd rfl hc⟩
    have h0 := @rd_of_drop (s ++ NUL :: NUL :: junk) i NUL (NUL :: junk)
      (by rw [drop_pad s junk hi, hieq, List.drop_length]; rfl)
    exact h0

theorem ToInt_pad (s junk : List Char) {i : Nat} (hi : i ≤ s.length + 1) (n : Int) :
    ∃ v, ToInt (s ++ NUL :: NUL :: junk) i n = some v := by
  unfold ToInt
  rw [drop_pad_succ s junk hi]
  exact ToInt_loop_some _ _ _ _

/-- `COPYN` from an index at or before the terminator: it stops at or before the terminator,
and what it copies is the stretch of the string it has moved over. -/
theorem COPYN_pad (s junk : List Char) {i : Nat} (hi : i ≤ s.length) (N : Int)
    (out : List Char) :
    ∃ k, i + k ≤ s.length ∧ ((s.drop i).take k).length = k ∧
      COPYN (s ++ NUL :: NUL :: junk) N i out = some (i + k, out ++ (s.drop i).take k) ∧
      (s.drop i).take k ++ s.drop (i + k) = s.drop i := by
  unfold COPYN
  rw [drop_pad s junk hi]
  obtain ⟨k, hk, hloop⟩ := COPYN_loop_spec (s.drop i) (NUL :: junk) N i out
  rw [List.length_drop] at hk
  refine ⟨k, by omega, ?_, hloop, ?_⟩
  · rw [List.length_take, List.length_drop]
    omega
  · have h1 := List.take_append_drop k (s.drop i)
    rw [List.drop_drop] at h1
    exact h1

/-- `COPYN` from an index at most one past the terminator. -/
theorem COPYN_pad_succ (s junk : List Char) {i : Nat} (hi : i ≤ s.length + 1) (N : Int)
    (out : List Char) :
    ∃ k ext, i + k ≤ s.length + 1 ∧ ext.length = k ∧
      COPYN (s ++ NUL :: NUL :: junk) N i out = some (i + k, out ++ ext) ∧
      ext ++ s.drop (i + k) = s.drop i := by
  rcases Nat.lt_or_ge s.length i with h | h
  · have hieq : i = s.length + 1 := by omega
    refine ⟨0, [], by omega, rfl, ?_, by simp⟩
    unfold COPYN
    have hd : (s ++ NUL :: NUL :: junk).drop i = NUL :: junk := by
      rw [drop_pad_succ s junk hi, hieq]
      have h2 : (s ++ [NUL]).length = s.length + 1 := by simp
      rw [← h2, List.drop_length]
      rfl
    rw [hd, COPYN_loop_NUL]
    simp
  · obtain ⟨k, hk, hlen, hcopy, hseg⟩ := COPYN_pad s junk h N out
    exact ⟨k, _, by omega, hlen, hcopy, hseg⟩

/-! ### Interleavings -/

theorem Weave.append {a b c a2 b2 c2 : List Char} (h : Weave a b c) (h2 : Weave a2 b2 c2) :
    Weave (a ++ a2) (b ++ b2) (c ++ c2) := by
  induction h with
  | done => simpa using h2
  | left x _ ih => exact Weave.left x ih
  | right x _ ih => exact Weave.right x ih

theorem Weave.copied (l : List Char) : Weave l [] l := by
  induction l with
  | nil => exact Weave.done
  | cons a l ih => exact Weave.left a ih

theorem Weave.inserted (l : List Char) : Weave [] l l := by
  induction l with
  | nil => exact Weave.done
  | cons a l ih => exact Weave.right a ih

theorem Weave.length_eq {a b c : List Char} (h : Weave a b c) :
    c.length = a.length + b.length := by
  induction h with
  | done => rfl
  | left x _ ih => simp [ih]; omega
  | right x _ ih => simp [ih]; omega

theorem segment_sublist {s ext X : List Char} {i j : Nat} (h : ext ++ s.drop j = s.drop i)
    (hX : X.Sublist (s.drop j)) : (ext ++ X).Sublist (s.drop i) := by
  rw [← h]
  exact (List.Sublist.refl ext).append hX

theorem segment_sublist_self {s ext : List Char} {i j : Nat}
    (h : ext ++ s.drop j = s.drop i) : ext.Sublist (s.drop i) := by
  rw [← h]
  exact List.sublist_append_left _ _

/-- The offset block never fails on a padded buffer. What it appends interleaves characters of
the input from index `i` on, in their order, with separators out of a space and a colon. -/
theorem offset_pad (s junk : List Char) {i : Nat} (hi : i ≤ s.length) (d : Tm)
    (out : List Char) :
    ∃ d1 ext copied seps,
      ToDate.offset (s ++ NUL :: NUL :: junk) d i out = some (d1, out ++ ext) ∧
      Weave copied seps ext ∧ copied.Sublist (s.drop i) ∧ seps.Sublist [' ', ':'] := by
  obtain ⟨c, hrd, hc⟩ := rd_pad s junk hi
  unfold ToDate.offset
  rw [hrd]
  simp only [Option.bind]
  by_cases hnul : c = NUL
  · exact ⟨d, [], [], [], by simp [hnul], Weave.done, List.nil_sublist _, List.nil_sublist _⟩
  · obtain ⟨hlt, hci⟩ := hc hnul
    rw [if_pos hnul]
    obtain ⟨h, hh⟩ := ToInt_pad s junk (i := i + 1) (by omega) 2
    obtain ⟨k1, hk1, hlen1, hcopy1, hseg1⟩ :=
      COPYN_pad s junk (i := i + 1) (by omega) 2 (out ++ [' '] ++ [c])
    rw [hh, hcopy1]
    simp only []
    obtain ⟨m, hm⟩ := ToInt_pad s junk (i := i + 1 + k1 + 1) (by omega) 2
    obtain ⟨k2, ext2, hk2, hlen2, hcopy2, hseg2⟩ :=
      COPYN_pad_succ s junk (i := i + 1 + k1 + 1) (by omega) 2
        (out ++ [' '] ++ [c] ++ List.take k1 (List.drop (i + 1) s) ++ [':'])
    rw [hm, hcopy2]
    simp only []
    refine ⟨{ d with tm_gmtoff := (h * 3600 + m * 60) * (if c = '-' then -1 else 1) },
      [' '] ++ [c] ++ List.take k1 (List.drop (i + 1) s) ++ [':'] ++ ext2,
      [c] ++ List.take k1 (List.drop (i + 1) s) ++ ext2, [' ', ':'], ?_, ?_, ?_,
      List.Sublist.refl _⟩
    · simp
    · have w := ((((Weave.inserted [' ']).append (Weave.copied [c])).append
        (Weave.copied (List.take k1 (List.drop (i + 1) s)))).append
        (Weave.inserted [':'])).append (Weave.copied ext2)
      simpa using w
    · rw [hci]
      have h2 : ext2.Sublist (s.drop (i + 1 + k1)) :=
        (segment_sublist_self hseg2).trans
          (List.drop_sublist_drop_left s (Nat.le_succ (i + 1 + k1)))
      have h3 := segment_sublist hseg1 h2
      simpa using List.Sublist.cons_cons c h3

/-- The time-of-day block never fails on a padded buffer. What it appends interleaves
characters of the input from index `i` on with separators out of `:`, `:`, space, `:`. -/
theorem clock_pad (s junk : List Char) {i : Nat} (hi : i ≤ s.length) (d : Tm)
    (out : List Char) :
    ∃ d1 ext copied seps,
      ToDate.clock (s ++ NUL :: NUL :: junk) d i out = some (d1, out ++ ext) ∧
      Weave copied seps ext ∧ copied.Sublist (s.drop i) ∧
      seps.Sublist [':', ':', ' ', ':'] := by
  obtain ⟨c, hrd, hc⟩ := rd_pad s junk hi
  unfold ToDate.clock
  rw [hrd]
  simp only [Option.bind]
  by_cases hnul : c = NUL
  · exact ⟨d, [], [], [], by simp [hnul], Weave.done, List.nil_sublist _, List.nil_sublist _⟩
  · rw [if_pos hnul]
    obtain ⟨v1, hv1⟩ := ToInt_pad s junk (i := i) (by omega) 2
    obtain ⟨k1, hk1, hlen1, hcopy1, hseg1⟩ := COPYN_pad s junk hi 2 out
    rw [hv1, hcopy1]
    simp only []
    obtain ⟨v2, hv2⟩ := ToInt_pad s junk (i := i + k1) (by omega) 2
    obtain ⟨k2, hk2, hlen2, hcopy2, hseg2⟩ :=
      COPYN_pad s junk hk1 2 (out ++ List.take k1 (List.drop i s) ++ [':'])
    rw [hv2, hcopy2]
    simp only []
    obtain ⟨v3, hv3⟩ := ToInt_pad s junk (i := i + k1 + k2) (by omega) 2
    obtain ⟨k3, hk3, hlen3, hcopy3, hseg3⟩ :=
      COPYN_pad s junk hk2 2
        (out ++ List.take k1 (List.drop i s) ++ [':']
          ++ List.take k2 (List.drop (i + k1) s) ++ [':'])
    rw [hv3, hcopy3]
    simp only []
    obtain ⟨d1, ext, copied, seps, hoff, hw, hsub, hseps⟩ :=
      offset_pad s junk hk3 { d with tm_hour := v1, tm_min := v2, tm_sec := v3 }
        (out ++ List.take k1 (List.drop i s) ++ [':']
          ++ List.take k2 (List.drop (i + k1) s) ++ [':']
          ++ List.take k3 (List.drop (i + k1 + k2) s))
    rw [hoff]
    refine ⟨d1, List.take k1 (List.drop i s) ++ [':'] ++ List.take k2 (List.drop (i + k1) s)
      ++ [':'] ++ List.take k3 (List.drop (i + k1 + k2) s) ++ ext,
      List.take k1 (List.drop i s) ++ List.take k2 (List.drop (i + k1) s)
        ++ List.take k3 (List.drop (i + k1 + k2) s) ++ copied,
      [':', ':'] ++ seps, ?_, ?_, ?_, ?_⟩
    · simp
    · have w := (((((Weave.copied (List.take k1 (List.drop i s))).append
        (Weave.inserted [':'])).append
        (Weave.copied (List.take k2 (List.drop (i + k1) s)))).append
        (Weave.inserted [':'])).append
        (Weave.copied (List.take k3 (List.drop (i + k1 + k2) s)))).append hw
      simpa using w
    · have h3 := segment_sublist hseg3 hsub
      have h2 := segment_sublist hseg2 h3
      have h1 := segment_sublist hseg1 h2
      simpa using h1
    · exact (List.Sublist.refl [':', ':']).append hseps

/-- The calendar block never fails on a padded buffer that starts with `D:`. Its output starts
with a stretch of the input taken from behind the leading spaces, then `/`; as a whole it
interleaves characters of the input behind `D:`, in their order, with a selection of the seven
separators. -/
theorem calendar_pad (body junk : List Char) (d : Tm) :
    ∃ d1 k ext copied seps,
      ToDate.calendar (('D' :: ':' :: body) ++ NUL :: NUL :: junk) d
        = some (d1, (body.dropWhile (fun c => c = ' ')).take k ++ '/' :: ext) ∧
      Weave copied seps ((body.dropWhile (fun c => c = ' ')).take k ++ '/' :: ext) ∧
      copied.Sublist body ∧ seps.Sublist separators := by
  generalize hs : 'D' :: ':' :: body = s
  have hL : s.length = body.length + 2 := by rw [← hs]; simp
  have hdrop2 : s.drop 2 = body := by rw [← hs]; rfl
  have hskip : skipSpaces (s ++ NUL :: NUL :: junk) 2
      = some (2 + (body.takeWhile (fun c => c = ' ')).length) := by
    unfold skipSpaces
    rw [drop_pad s junk (by omega), hdrop2]
    exact skipSpaces_loop_spec body _ 2
  have htw : (body.takeWhile (fun c => decide (c = ' '))).length ≤ body.length :=
    (List.takeWhile_sublist _).length_le
  generalize hfrm : 2 + (body.takeWhile (fun c => decide (c = ' '))).length = frm at hskip
  have hfrmL : frm ≤ s.length := by omega
  have hdropf : s.drop frm = body.dropWhile (fun c => c = ' ') := by
    rw [← hfrm, ← List.drop_drop, hdrop2]
    have h1 := List.takeWhile_append_dropWhile (fun c => decide (c = ' ')) body
    have h2 : (body.takeWhile (fun c => decide (c = ' '))
        ++ body.dropWhile (fun c => decide (c = ' '))).drop
          (body.takeWhile (fun c => decide (c = ' '))).length
        = body.dropWhile (fun c => decide (c = ' ')) := List.drop_left _ _
    rw [h1] at h2
    exact h2
  have hfrmsub : (s.drop frm).Sublist body := by
    rw [← hdrop2]
    exact List.drop_sublist_drop_left s (by omega)
  obtain ⟨ku, hku, hscan⟩ : ∃ k, k ≤ (s.drop frm).length ∧
      scanDigits (s ++ NUL :: NUL :: junk) frm = some (frm + k) := by
    unfold scanDigits
    rw [drop_pad s junk hfrmL]
    exact scanDigits_loop_spec _ _ _
  obtain ⟨year, hyear⟩ := ToInt_pad s junk (i := frm) (by omega) 4
  obtain ⟨k0, hk0, hlen0, hcopy0, hseg0⟩ : ∃ k, frm + k ≤ s.length ∧
      ((s.drop frm).take k).length = k ∧
      (if ((frm + ku : Nat) : Int) - (frm : Int) > 12 then
          COPYN (s ++ NUL :: NUL :: junk) (((frm + ku : Nat) : Int) - (frm : Int) - 10) frm []
        else COPYN (s ++ NUL :: NUL :: junk) (((frm + ku : Nat) : Int) - (frm : Int) - 4) frm [])
        = some (frm + k, [] ++ (s.drop frm).take k) ∧
      (s.drop frm).take k ++ s.drop (frm + k) = s.drop frm := by
    split
    · exact COPYN_pad s junk hfrmL _ []
    · exact COPYN_pad s junk hfrmL _ []
  unfold ToDate.calendar
  rw [hskip]
  simp only [Option.bind]
  rw [hscan]
  simp only []
  rw [hyear]
  simp only []
  rw [hcopy0]
  simp only []
  obtain ⟨mon, hmon⟩ := ToInt_pad s junk (i := frm + k0) (by omega) 2
  obtain ⟨k1, hk1, hlen1, hcopy1, hseg1⟩ :=
    COPYN_pad s junk hk0 2 ([] ++ List.take k0 (List.drop frm s) ++ ['/'])
  rw [hmon, hcopy1]
  simp only []
  obtain ⟨mday, hmday⟩ := ToInt_pad s junk (i := frm + k0 + k1) (by omega) 2
  obtain ⟨k2, hk2, hlen2, hcopy2, hseg2⟩ :=
    COPYN_pad s junk hk1 2
      ([] ++ List.take k0 (List.drop frm s) ++ ['/']
        ++ List.take k1 (List.drop (frm + k0) s) ++ ['/'])
  rw [hmday, hcopy2]
  simp only []
  obtain ⟨d1, ext, copied, seps, hclock, hw, hsub, hseps⟩ :=
    clock_pad s junk hk2 { d with tm_year := year - 1900, tm_mon := mon - 1, tm_mday := mday }
      ([] ++ List.take k0 (List.drop frm s) ++ ['/']
        ++ List.take k1 (List.drop (frm + k0) s) ++ ['/']
        ++ List.take k2 (List.drop (frm + k0 + k1) s) ++ [' '])
  rw [hclock]
  refine ⟨d1, k0, List.take k1 (List.drop (frm + k0) s) ++ ['/']
        ++ List.take k2 (List.drop (frm + k0 + k1) s) ++ [' '] ++ ext,
      List.take k0 (List.drop frm s) ++ List.take k1 (List.drop (frm + k0) s)
        ++ List.take k2 (List.drop (frm + k0 + k1) s) ++ copied,
      ['/', '/', ' '] ++ seps, ?_, ?_, ?_, ?_⟩
  · rw [← hdropf]; simp
  · rw [← hdropf]
    have w := ((((((Weave.copied (List.take k0 (List.drop frm s))).append
      (Weave.inserted ['/'])).append
      (Weave.copied (List.take k1 (List.drop (frm + k0) s)))).append
      (Weave.inserted ['/'])).append
      (Weave.copied (List.take k2 (List.drop (frm + k0 + k1) s)))).append
      (Weave.inserted [' '])).append hw
    simpa using w
  · have h3 := segment_sublist hseg2 hsub
    have h2 := segment_sublist hseg1 h3
    have h1 := segment_sublist hseg0 h2
    have h0 : (List.take k0 (List.drop frm s) ++ List.take k1 (List.drop (frm + k0) s)
        ++ List.take k2 (List.drop (frm + k0 + k1) s) ++ copied).Sublist (s.drop frm) := by
      simpa using h1
    exact h0.trans hfrmsub
  · exact (List.Sublist.refl ['/', '/', ' ']).append hseps

/-! ### More bytes behind the buffer do not change a result -/

theorem bind_some_mono {α β : Type} {x y : Option α} {g k : α → Option β} {r : β}
    (hx : ∀ a, x = some a → y = some a) (hg : ∀ a, g a = some r → k a = some r)
    (h : x.bind g = some r) : y.bind k = some r := by
  cases x with
  | none => simp at h
  | some a =>
    rw [hx a rfl]
    exact hg a h

theorem rd_mono (e : List Char) {date : List Char} {i : Nat} {c : Char}
    (h : rd date i = some c) : rd (date ++ e) i = some c := by
  unfold rd at h ⊢
  have hlt : i < date.length := (List.getElem?_eq_some.1 h).1
  rw [List.getElem?_append_left hlt]
  exact h

theorem ToInt_loop_zero (l : List Char) (d : Int) : ToInt.loop l 0 d = some d := by
  cases l <;> simp [ToInt.loop]

theorem ToInt_loop_mono (e : List Char) (r : List Char) (n d v : Int)
    (h : ToInt.loop r n d = some v) : ToInt.loop (r ++ e) n d = some v := by
  induction r generalizing n d with
  | nil =>
    by_cases hn : n = 0
    · subst hn
      simp only [ToInt.loop, if_true] at h
      rw [ToInt_loop_zero]
      exact h
    · simp [ToInt.loop, hn] at h
  | cons a r ih =>
    rw [List.cons_append]
    unfold ToInt.loop at h ⊢
    by_cases hn : n = 0
    · simpa [hn] using h
    · by_cases ha : a ≠ NUL ∧ a.isDigit = true
      · rw [if_neg hn, if_pos ha] at h ⊢
        exact ih _ _ h
      · rw [if_neg hn, if_neg ha] at h ⊢
        exact h

theorem COPYN_loop_mono (e : List Char) (r : List Char) (n : Int) (i : Nat) (s : List Char)
    (v : Nat × List Char) (h : COPYN.loop r n i s = some v) :
    COPYN.loop (r ++ e) n i s = some v := by
  induction r generalizing n i s with
  | nil =>
    by_cases hn : n = 0
    · subst hn
      simp only [COPYN.loop, if_true] at h
      rw [COPYN_loop_zero]
      exact h
    · simp [COPYN.loop, hn] at h
  | cons a r ih =>
    rw [List.cons_append]
    unfold COPYN.loop at h ⊢
    by_cases hn : n = 0
    · simpa [hn] using h
    · by_cases ha : a ≠ NUL
      · rw [if_neg hn, if_pos ha] at h ⊢
        exact ih _ _ _ h
      · rw [if_neg hn, if_neg ha] at h ⊢
        exact h

theorem skipSpaces_loop_mono (e : List Char) (r : List Char) (i v : Nat)
    (h : skipSpaces.loop r i = some v) : skipSpaces.loop (r ++ e) i = some v := by
  induction r generalizing i with
  | nil => simp [skipSpaces.loop] at h
  | cons a r ih =>
    rw [List.cons_append]
    unfold skipSpaces.loop at h ⊢
    by_cases ha : a = ' '
    · rw [if_pos ha] at h ⊢
      exact ih _ h
    · rw [if_neg ha] at h ⊢
      exact h

theorem scanDigits_loop_mono (e : List Char) (r : List Char) (i v : Nat)
    (h : scanDigits.loop r i = some v) : scanDigits.loop (r ++ e) i = some v := by
  induction r generalizing i with
  | nil => simp [scanDigits.loop] at h
  | cons a r ih =>
    rw [List.cons_append]
    unfold scanDigits.loop at h ⊢
    by_cases ha : a ≠ NUL ∧ a.isDigit = true
    · rw [if_pos ha] at h ⊢
      exact ih _ h
    · rw [if_neg ha] at h ⊢
      exact h

theorem drop_append_cases (date e : List Char) (i : Nat) :
    (date ++ e).drop i = date.drop i ++ e ∨ date.drop i = [] := by
  rcases Nat.le_total i date.length with h | h
  · exact Or.inl (List.drop_append_of_le_length h)
  · exact Or.inr (List.drop_eq_nil_of_le h)

theorem ToInt_mono (e : List Char) {date : List Char} {i : Nat} {n v : Int}
    (h : ToInt date i n = some v) : ToInt (date ++ e) i n = some v := by
  unfold ToInt at h ⊢
  rcases drop_append_cases date e i with hd | hd
  · rw [hd]
    exact ToInt_loop_mono e _ _ _ _ h
  · rw [hd] at h
    by_cases hn : n = 0
    · subst hn
      simp only [ToInt.loop, if_true] at h
      rw [ToInt_loop_zero]
      exact h
    · simp [ToInt.loop, hn] at h

theorem COPYN_mono (e : List Char) {date : List Char} {N : Int} {i : Nat} {s : List Char}
    {v : Nat × List Char} (h : COPYN date N i s = some v) :
    COPYN (date ++ e) N i s = some v := by
  unfold COPYN at h ⊢
  rcases drop_append_cases date e i with hd | hd
  · rw [hd]
    exact COPYN_loop_mono e _ _ _ _ _ h
  · rw [hd] at h
    by_cases hn : N = 0
    · subst hn
      simp only [COPYN.loop, if_true] at h
      rw [COPYN_loop_zero]
      exact h
    · simp [COPYN.loop, hn] at h

theorem skipSpaces_mono (e : List Char) {date : List Char} {i v : Nat}
    (h : skipSpaces date i = some v) : skipSpaces (date ++ e) i = some v := by
  unfold skipSpaces at h ⊢
  rcases drop_append_cases date e i with hd | hd
  · rw [hd]
    exact skipSpaces_loop_mono e _ _ _ h
  · rw [hd] at h
    simp [skipSpaces.loop] at h

theorem scanDigits_mono (e : List Char) {date : List Char} {i v : Nat}
    (h : scanDigits date i = some v) : scanDigits (date ++ e) i = some v := by
  unfold scanDigits at h ⊢
  rcases drop_append_cases date e i with hd | hd
  · rw [hd]
    exact scanDigits_loop_mono e _ _ _ h
  · rw [hd] at h
    simp [scanDigits.loop] at h

theorem offset_mono (e : List Char) {date : List Char} {d : Tm} {i : Nat} {s : List Char}
    {r : Tm × List Char} (h : ToDate.offset date d i s = some r) :
    ToDate.offset (date ++ e) d i s = some r := by
  unfold ToDate.offset at h ⊢
  rcases hrd : rd date i with _ | c
  · rw [hrd] at h; simp [Option.bind] at h
  rw [hrd] at h; rw [rd_mono e hrd]
  simp only [Option.bind] at h ⊢
  by_cases hnul : c ≠ NUL
  · rw [if_pos hnul] at h ⊢
    rcases h1 : ToInt date (i + 1) 2 with _ | v1
    · rw [h1] at h; simp at h
    rw [h1] at h; rw [ToInt_mono e h1]
    simp only [] at h ⊢
    rcases h2 : COPYN date 2 (i + 1) (s ++ [' '] ++ [c]) with _ | p1
    · rw [h2] at h; simp at h
    rw [h2] at h; rw [COPYN_mono e h2]
    simp only [] at h ⊢
    rcases h3 : ToInt date (p1.1 + 1) 2 with _ | v2
    · rw [h3] at h; simp at h
    rw [h3] at h; rw [ToInt_mono e h3]
    simp only [] at h ⊢
    rcases h4 : COPYN date 2 (p1.1 + 1) (p1.2 ++ [':']) with _ | p2
    · rw [h4] at h; simp at h
    rw [h4] at h; rw [COPYN_mono e h4]
    exact h
  · rw [if_neg hnul] at h ⊢
    exact h

theorem clock_mono (e : List Char) {date : List Char} {d : Tm} {i : Nat} {s : List Char}
    {r : Tm × List Char} (h : ToDate.clock date d i s = some r) :
    ToDate.clock (date ++ e) d i s = some r := by
  unfold ToDate.clock at h ⊢
  rcases hrd : rd date i with _ | c
  · rw [hrd] at h; simp [Option.bind] at h
  rw [hrd] at h; rw [rd_mono e hrd]
  simp only [Option.bind] at h ⊢
  by_cases hnul : c ≠ NUL
  · rw [if_pos hnul] at h ⊢
    rcases h1 : ToInt date i 2 with _ | v1
    · rw [h1] at h; simp at h
    rw [h1] at h; rw [ToInt_mono e h1]
    simp only [] at h ⊢
    rcases h2 : COPYN date 2 i s with _ | p1
    · rw [h2] at h; simp at h
    rw [h2] at h; rw [COPYN_mono e h2]
    simp only [] at h ⊢
    rcases h3 : ToInt date p1.1 2 with _ | v2
    · rw [h3] at h; simp at h
    rw [h3] at h; rw [ToInt_mono e h3]
    simp only [] at h ⊢
    rcases h4 : COPYN date 2 p1.1 (p1.2 ++ [':']) with _ | p2
    · rw [h4] at h; simp at h
    rw [h4] at h; rw [COPYN_mono e h4]
    simp only [] at h ⊢
    rcases h5 : ToInt date p2.1 2 with _ | v3
    · rw [h5] at h; simp at h
    rw [h5] at h; rw [ToInt_mono e h5]
    simp only [] at h ⊢
    rcases h6 : COPYN date 2 p2.1 (p2.2 ++ [':']) with _ | p3
    · rw [h6] at h; simp at h
    rw [h6] at h; rw [COPYN_mono e h6]
    simp only [] at h ⊢
    exact offset_mono e h
  · rw [if_neg hnul] at h ⊢
    exact h

theorem calendar_mono (e : List Char) {date : List Char} {d : Tm} {r : Tm × List Char}
    (h : ToDate.calendar date d = some r) : ToDate.calendar (date ++ e) d = some r := by
  unfold ToDate.calendar at h ⊢
  rcases h1 : skipSpaces date 2 with _ | frm
  · rw [h1] at h; simp [Option.bind] at h
  rw [h1] at h; rw [skipSpaces_mono e h1]
  simp only [Option.bind] at h ⊢
  rcases h2 : scanDigits date frm with _ | upto
  · rw [h2] at h; simp at h
  rw [h2] at h; rw [scanDigits_mono e h2]
  simp only [] at h ⊢
  rcases h3 : ToInt date frm 4 with _ | year
  · rw [h3] at h; simp at h
  rw [h3] at h; rw [ToInt_mono e h3]
  simp only [] at h ⊢
  rcases h4 : (if (upto : Int) - (frm : Int) > 12 then
      COPYN date ((upto : Int) - (frm : Int) - 10) frm []
    else COPYN date ((upto : Int) - (frm : Int) - 4) frm []) with _ | p0
  · rw [h4] at h; simp at h
  have h4e : (if (upto : Int) - (frm : Int) > 12 then
      COPYN (date ++ e) ((upto : Int) - (frm : Int) - 10) frm []
    else COPYN (date ++ e) ((upto : Int) - (frm : Int) - 4) frm []) = some p0 := by
    split at h4
    · rename_i hgt; rw [if_pos hgt]; exact COPYN_mono e h4
    · rename_i hgt; rw [if_neg hgt]; exact COPYN_mono e h4
  rw [h4] at h; rw [h4e]
  simp only [] at h ⊢
  rcases h5 : ToInt date p0.1 2 with _ | mon
  · rw [h5] at h; simp at h
  rw [h5] at h; rw [ToInt_mono e h5]
  simp only [] at h ⊢
  rcases h6 : COPYN date 2 p0.1 (p0.2 ++ ['/']) with _ | p1
  · rw [h6] at h; simp at h
  rw [h6] at h; rw [COPYN_mono e h6]
  simp only [] at h ⊢
  rcases h7 : ToInt date p1.1 2 with _ | mday
  · rw [h7] at h; simp at h
  rw [h7] at h; rw [ToInt_mono e h7]
  simp only [] at h ⊢
  rcases h8 : COPYN date 2 p1.1 (p1.2 ++ ['/']) with _ | p2
  · rw [h8] at h; simp at h
  rw [h8] at h; rw [COPYN_mono e h8]
  simp only [] at h ⊢
  exact clock_mono e h

theorem dateMarker_mono (e : List Char) {date : List Char} {b : Bool}
    (h : dateMarker date = some b) : dateMarker (date ++ e) = some b := by
  unfold dateMarker at h ⊢
  rcases h0 : rd date 0 with _ | c0
  · rw [h0] at h; simp [Option.bind] at h
  rw [h0] at h; rw [rd_mono e h0]
  simp only [Option.bind] at h ⊢
  by_cases hD : c0 = 'D'
  · rw [if_pos hD] at h ⊢
    rcases h1 : rd date 1 with _ | c1
    · rw [h1] at h; simp at h
    rw [h1] at h; rw [rd_mono e h1]
    exact h
  · rw [if_neg hD] at h ⊢
    exact h

theorem ToDate_eq (mktime : Tm → Int) (d0 : Tm) (date : List Char) (time : Option Int) :
    ToDate mktime d0 date time =
      (dateMarker date).bind fun b =>
        if b then
          (ToDate.calendar date d0).bind fun r =>
            some { ret := .buffer r.2, time := time.map (fun _ => mktime r.1), d := r.1 }
        else some { ret := .input, time := time, d := d0 } := by
  unfold ToDate
  rw [memset_zero]

/-- A result obtained without reading past the buffer is the result on every longer buffer. -/
theorem ToDate_mono (mktime : Tm → Int) (d0 : Tm) (e : List Char) {date : List Char}
    {time : Option Int} {r : DateOut} (h : ToDate mktime d0 date time = some r) :
    ToDate mktime d0 (date ++ e) time = some r := by
  rw [ToDate_eq] at h ⊢
  rcases h0 : dateMarker date with _ | b
  · rw [h0] at h; exact absurd h (by simp)
  rw [h0] at h; rw [dateMarker_mono e h0]
  rw [Option.some_bind] at h ⊢
  cases b with
  | true =>
    rw [if_pos rfl] at h ⊢
    rcases h1 : ToDate.calendar date d0 with _ | p
    · rw [h1] at h; exact absurd h (by simp)
    rw [h1] at h; rw [calendar_mono e h1]
    exact h
  | false =>
    rw [if_neg (by decide)] at h ⊢
    exact h

/-! ### The logged code is the code -/

theorem logged_offset_erase (date : List Char) (d : Tm) (i : Nat) (s : List Char)
    (log : List (Nat × Nat)) :
    (Logged.offset date d i s log).map (fun r => (r.1, r.2.1)) = ToDate.offset date d i s := by
  unfold Logged.offset ToDate.offset
  rcases rd date i with _ | c
  · rfl
  simp only [Option.bind]
  by_cases hnul : c ≠ NUL
  · rw [if_pos hnul, if_pos hnul]
    rcases ToInt date (i + 1) 2 with _ | v1
    · rfl
    simp only []
    rcases COPYN date 2 (i + 1) (s ++ [' '] ++ [c]) with _ | p1
    · rfl
    simp only []
    rcases ToInt date (p1.1 + 1) 2 with _ | v2
    · rfl
    simp only []
    rcases COPYN date 2 (p1.1 + 1) (p1.2 ++ [':']) with _ | p2
    · rfl
    rfl
  · rw [if_neg hnul, if_neg hnul]
    rfl

theorem logged_clock_erase (date : List Char) (d : Tm) (i : Nat) (s : List Char)
    (log : List (Nat × Nat)) :
    (Logged.clock date d i s log).map (fun r => (r.1, r.2.1)) = ToDate.clock date d i s := by
  unfold Logged.clock ToDate.clock
  rcases rd date i with _ | c
  · rfl
  simp only [Option.bind]
  by_cases hnul : c ≠ NUL
  · rw [if_pos hnul, if_pos hnul]
    rcases ToInt date i 2 with _ | v1
    · rfl
    simp only []
    rcases COPYN date 2 i s with _ | p1
    · rfl
    simp only []
    rcases ToInt date p1.1 2 with _ | v2
    · rfl
    simp only []
    rcases COPYN date 2 p1.1 (p1.2 ++ [':']) with _ | p2
    · rfl
    simp only []
    rcases ToInt date p2.1 2 with _ | v3
    · rfl
    simp only []
    rcases COPYN date 2 p2.1 (p2.2 ++ [':']) with _ | p3
    · rfl
    simp only []
    exact logged_offset_erase date _ p3.1 p3.2 _
  · rw [if_neg hnul, if_neg hnul]
    rfl

theorem logged_calendar_erase (date : List Char) (d : Tm) :
    (Logged.calendar date d).map (fun r => (r.1, r.2.1)) = ToDate.calendar date d := by
  unfold Logged.calendar ToDate.calendar
  rcases skipSpaces date 2 with _ | frm
  · rfl
  simp only [Option.bind]
  rcases scanDigits date frm with _ | upto
  · rfl
  simp only []
  rcases ToInt date frm 4 with _ | year
  · rfl
  simp only []
  rcases (if (upto : Int) - (frm : Int) > 12 then
      COPYN date ((upto : Int) - (frm : Int) - 10) frm []
    else COPYN date ((upto : Int) - (frm : Int) - 4) frm []) with _ | p0
  · rfl
  simp only []
  rcases ToInt date p0.1 2 with _ | mon
  · rfl
  simp only []
  rcases COPYN date 2 p0.1 (p0.2 ++ ['/']) with _ | p1
  · rfl
  simp only []
  rcases ToInt date p1.1 2 with _ | mday
  · rfl
  simp only []
  rcases COPYN date 2 p1.1 (p1.2 ++ ['/']) with _ | p2
  · rfl
  simp only []
  exact logged_clock_erase date _ p2.1 (p2.2 ++ [' ']) _

/-- Dropping the log of `Logged.ToDate` gives `ToDate`. -/
theorem logged_ToDate_erase (mktime : Tm → Int) (d0 : Tm) (date : List Char)
    (time : Option Int) :
    (Logged.ToDate mktime d0 date time).map Prod.fst = ToDate mktime d0 date time := by
  unfold Logged.ToDate ToDate
  rw [memset_zero]
  rcases dateMarker date with _ | b
  · rfl
  simp only [Option.bind]
  cases b with
  | false => rfl
  | true =>
    rw [if_pos rfl, if_pos rfl]
    rw [← logged_calendar_erase date d0]
    rcases Logged.calendar date d0 with _ | p
    · rfl
    rfl

/-! ### The log on the well-formed shapes -/

theorem logged_offset_full {date : List Char} {i : Nat} {c h1 h2 q m1 m2 : Char}
    {rest : List Char}
    (hd : date.drop i = c :: h1 :: h2 :: q :: m1 :: m2 :: rest) (hc : c ≠ NUL)
    (hh1 : h1.isDigit = true) (hh2 : h2.isDigit = true) (hm1 : m1.isDigit = true)
    (hm2 : m2.isDigit = true) (d : Tm) (s : List Char) (log : List (Nat × Nat)) :
    ∃ (d1 : Tm) (s1 : List Char),
      Logged.offset date d i s log = some (d1, s1, log ++ [(i + 1, 2), (i + 1 + 2 + 1, 2)]) := by
  have e1 := drop_succ_of_drop hd
  have e4 := drop_add_of_drop [h1, h2, q] (r := m1 :: m2 :: rest) e1
  simp only [List.length_cons, List.length_nil] at e4
  have e4b : date.drop (i + 1 + 2 + 1) = m1 :: m2 :: rest := e4
  unfold Logged.offset
  rw [rd_of_drop hd]
  simp only [Option.bind, hc, ne_eq, not_false_eq_true, if_true]
  rw [ToInt_of_drop e1, ToInt_loop_two hh1 hh2, COPYN_of_drop e1,
    COPYN_loop_two (isDigit_ne_NUL hh1) (isDigit_ne_NUL hh2)]
  simp only []
  rw [ToInt_of_drop e4b, ToInt_loop_two hm1 hm2, COPYN_of_drop e4b,
    COPYN_loop_two (isDigit_ne_NUL hm1) (isDigit_ne_NUL hm2)]
  exact ⟨_, _, rfl⟩

theorem logged_offset_end {date : List Char} {i : Nat} {rest : List Char}
    (hd : date.drop i = NUL :: rest) (d : Tm) (s : List Char) (log : List (Nat × Nat)) :
    Logged.offset date d i s log = some (d, s, log) := by
  unfold Logged.offset
  rw [rd_of_drop hd]
  simp [Option.bind]

theorem logged_clock_full {date : List Char} {i : Nat} {H1 H2 M1 M2 S1 S2 : Char}
    {rest : List Char}
    (hd : date.drop i = H1 :: H2 :: M1 :: M2 :: S1 :: S2 :: rest)
    (hH1 : H1.isDigit = true) (hH2 : H2.isDigit = true) (hM1 : M1.isDigit = true)
    (hM2 : M2.isDigit = true) (hS1 : S1.isDigit = true) (hS2 : S2.isDigit = true)
    (d : Tm) (s : List Char) (log : List (Nat × Nat)) :
    ∃ (d1 : Tm) (s1 : List Char), Logged.clock date d i s log =
      Logged.offset date d1 (i + 2 + 2 + 2) s1 (log ++ [(i, 2), (i + 2, 2), (i + 2 + 2, 2)]) := by
  have e2 : date.drop (i + 2) = M1 :: M2 :: S1 :: S2 :: rest :=
    drop_add_of_drop [H1, H2] hd
  have e4 : date.drop (i + 2 + 2) = S1 :: S2 :: rest := drop_add_of_drop [M1, M2] e2
  unfold Logged.clock
  rw [rd_of_drop hd]
  simp only [Option.bind, isDigit_ne_NUL hH1, ne_eq, not_false_eq_true, if_true]
  rw [ToInt_of_drop hd, ToInt_loop_two hH1 hH2, COPYN_of_drop hd,
    COPYN_loop_two (isDigit_ne_NUL hH1) (isDigit_ne_NUL hH2)]
  simp only []
  rw [ToInt_of_drop e2, ToInt_loop_two hM1 hM2, COPYN_of_drop e2,
    COPYN_loop_two (isDigit_ne_NUL hM1) (isDigit_ne_NUL hM2)]
  simp only []
  rw [ToInt_of_drop e4, ToInt_loop_two hS1 hS2, COPYN_of_drop e4,
    COPYN_loop_two (isDigit_ne_NUL hS1) (isDigit_ne_NUL hS2)]
  exact ⟨_, _, rfl⟩

theorem logged_clock_end {date : List Char} {i : Nat} {rest : List Char}
    (hd : date.drop i = NUL :: rest) (d : Tm) (s : List Char) (log : List (Nat × Nat)) :
    Logged.clock date d i s log = some (d, s, log) := by
  unfold Logged.clock
  rw [rd_of_drop hd]
  simp [Option.bind]

theorem logged_calendar_digits {date : List Char} {p : List Char} {a b c e : Char}
    {rest : List Char}
    (hd : date.drop 2 = p ++ a :: b :: c :: e :: rest)
    (hp : ∀ x ∈ p, x.isDigit = true)
    (ha : a.isDigit = true) (hb : b.isDigit = true) (hc : c.isDigit = true)
    (he : e.isDigit = true)
    {upto : Nat} (hupto : scanDigits.loop (date.drop 2) 2 = some upto)
    (hN : (if (upto : Int) - ((2 : Nat) : Int) > 12 then (upto : Int) - ((2 : Nat) : Int) - 10
            else (upto : Int) - ((2 : Nat) : Int) - 4) = (p.length : Int))
    {y : Int} (hy : ToInt.loop (date.drop 2) 4 0 = some y) (d : Tm) :
    ∃ (d1 : Tm) (s1 : List Char), Logged.calendar date d =
      Logged.clock date d1 (2 + p.length + 2 + 2) s1
        [(2, 4), (2 + p.length, 2), (2 + p.length + 2, 2)] := by
  have hsp : skipSpaces date 2 = some 2 := by
    unfold skipSpaces
    rw [hd]
    cases p with
    | nil => exact skipSpaces_loop_stop (isDigit_ne_space ha) _ _
    | cons x p => exact skipSpaces_loop_stop (isDigit_ne_space (hp x (by simp))) _ _
  have e1 : date.drop (2 + p.length) = a :: b :: c :: e :: rest := drop_add_of_drop p hd
  have e2 : date.drop (2 + p.length + 2) = c :: e :: rest := drop_add_of_drop [a, b] e1
  have hcopy : (if (upto : Int) - ((2 : Nat) : Int) > 12 then
        COPYN date ((upto : Int) - ((2 : Nat) : Int) - 10) 2 []
      else COPYN date ((upto : Int) - ((2 : Nat) : Int) - 4) 2 [])
      = some (2 + p.length, p) := by
    have h1 : ∀ N : Int, N = (p.length : Int) → COPYN date N 2 [] = some (2 + p.length, p) := by
      intro N hNe
      rw [hNe, COPYN, hd, COPYN_loop_run p (fun x hx => isDigit_ne_NUL (hp x hx))]
      simp
    split
    · rename_i hgt; rw [if_pos hgt] at hN; exact h1 _ hN
    · rename_i hgt; rw [if_neg hgt] at hN; exact h1 _ hN
  unfold Logged.calendar
  rw [hsp]
  simp only [Option.bind]
  rw [scanDigits, hupto]
  simp only []
  rw [ToInt, hy]
  simp only []
  rw [hcopy]
  simp only []
  rw [ToInt_of_drop e1, ToInt_loop_two ha hb, COPYN_of_drop e1,
    COPYN_loop_two (isDigit_ne_NUL ha) (isDigit_ne_NUL hb)]
  simp only []
  rw [ToInt_of_drop e2, ToInt_loop_two hc he, COPYN_of_drop e2,
    COPYN_loop_two (isDigit_ne_NUL hc) (isDigit_ne_NUL he)]
  exact ⟨_, _, rfl⟩

theorem logged_ToDate_short (mktime : Tm → Int) (d0 : Tm) (time : Option Int) (p : List Char)
    (a b c e : Char) (hp : ∀ x ∈ p, x.isDigit = true) (hlen : p.length ≤ 8)
    (ha : a.isDigit = true) (hb : b.isDigit = true) (hc : c.isDigit = true)
    (he : e.isDigit = true) :
    ∃ r : DateOut, Logged.ToDate mktime d0 (cstr ('D' :: ':' :: (p ++ [a, b, c, e]))) time
      = some (r, [(2, 4), (2 + p.length, 2), (2 + p.length + 2, 2)]) := by
  generalize hdate : cstr ('D' :: ':' :: (p ++ [a, b, c, e])) = date
  have hpre : dateMarker date = some true := by rw [← hdate]; exact dateMarker_D_colon _
  have e2 : date.drop 2 = p ++ a :: b :: c :: e :: [NUL] := by
    rw [← hdate]; simp [cstr]
  have e2b : date.drop 2 = (p ++ [a, b, c, e]) ++ NUL :: [] := by
    rw [e2]; simp
  have hupto : scanDigits.loop (date.drop 2) 2 = some (2 + (p ++ [a, b, c, e]).length) := by
    rw [e2b]
    exact scanDigits_loop_run (p ++ [a, b, c, e]) (by
      intro x hx
      simp only [List.mem_append, List.mem_cons, List.mem_singleton, List.not_mem_nil,
        or_false] at hx
      rcases hx with h | h | h | h | h
      · exact hp x h
      all_goals (rw [h]; assumption)) NUL (by decide) [] 2
  obtain ⟨y, hy⟩ := ToInt_loop_some (p ++ [a, b, c, e]) [] 4 0
  rw [← e2b] at hy
  have e6 : date.drop (2 + p.length + 2 + 2) = [NUL] := by
    have h1 := drop_add_of_drop p e2
    have h2 := drop_add_of_drop [a, b] h1
    exact drop_add_of_drop [c, e] h2
  obtain ⟨d1, s1, hcal⟩ := logged_calendar_digits e2 hp ha hb hc he hupto (by
        simp only [List.length_append, List.length_cons, List.length_nil]
        push_cast
        split <;> omega) hy (memset d0 sizeofTm 0)
  unfold Logged.ToDate
  rw [hpre]
  simp only [Option.bind, if_true]
  rw [hcal, logged_clock_end e6]
  exact ⟨_, rfl⟩

theorem logged_ToDate_digits14 (mktime : Tm → Int) (d0 : Tm) (time : Option Int)
    (y1 y2 y3 y4 m1 m2 d1 d2 H1 H2 M1 M2 S1 S2 : Char)
    (hdig : isDigits [y1, y2, y3, y4, m1, m2, d1, d2, H1, H2, M1, M2, S1, S2] = true) :
    ∃ r : DateOut, Logged.ToDate mktime d0
      (cstr ['D', ':', y1, y2, y3, y4, m1, m2, d1, d2, H1, H2, M1, M2, S1, S2]) time
      = some (r, [(2, 4), (6, 2), (8, 2), (10, 2), (12, 2), (14, 2)]) := by
  simp only [isDigits, List.all_cons, List.all_nil, Bool.and_true, Bool.and_eq_true] at hdig
  obtain ⟨hy1, hy2, hy3, hy4, hm1, hm2, hd1, hd2, hH1, hH2, hM1, hM2, hS1, hS2⟩ := hdig
  generalize hdate :
    cstr ['D', ':', y1, y2, y3, y4, m1, m2, d1, d2, H1, H2, M1, M2, S1, S2] = date
  have hpre : dateMarker date = some true := by rw [← hdate]; exact dateMarker_D_colon _
  have e2 : date.drop 2 = [y1, y2, y3, y4] ++ m1 :: m2 :: d1 :: d2 :: H1 :: H2 :: M1 :: M2
      :: S1 :: S2 :: [NUL] := by rw [← hdate]; rfl
  have e10 : date.drop 10 = H1 :: H2 :: M1 :: M2 :: S1 :: S2 :: [NUL] := by rw [← hdate]; rfl
  have e16 : date.drop 16 = NUL :: [] := by rw [← hdate]; rfl
  have hupto : scanDigits.loop (date.drop 2) 2 = some 16 := by
    rw [← hdate]
    exact scanDigits_loop_run [y1, y2, y3, y4, m1, m2, d1, d2, H1, H2, M1, M2, S1, S2] (by
      intro x hx
      simp only [List.mem_cons, List.mem_singleton, List.not_mem_nil, or_false] at hx
      rcases hx with h | h | h | h | h | h | h | h | h | h | h | h | h | h <;> rw [h] <;>
        assumption) NUL (by decide) [] 2
  have hy : ToInt.loop (date.drop 2) 4 0 = some (num4 y1 y2 y3 y4) := by
    rw [e2]; exact ToInt_loop_four hy1 hy2 hy3 hy4 _
  obtain ⟨t1, s1, hcal⟩ := logged_calendar_digits e2 (by
        intro x hx
        simp only [List.mem_cons, List.mem_singleton, List.not_mem_nil, or_false] at hx
        rcases hx with h | h | h | h <;> rw [h] <;> assumption)
      hm1 hm2 hd1 hd2 hupto (by simp) hy (memset d0 sizeofTm 0)
  simp only [List.length_cons, List.length_nil, Nat.reduceAdd] at hcal
  obtain ⟨t2, s2, hcl⟩ := logged_clock_full e10 hH1 hH2 hM1 hM2 hS1 hS2 t1 s1
    [(2, 4), (6, 2), (8, 2)]
  simp only [Nat.reduceAdd, List.cons_append, List.nil_append] at hcl
  unfold Logged.ToDate
  rw [hpre]
  simp only [Option.bind, if_true]
  rw [hcal, hcl, logged_offset_end e16]
  exact ⟨_, rfl⟩

theorem logged_ToDate_full (mktime : Tm → Int) (d0 : Tm) (time : Option Int)
    (y1 y2 y3 y4 m1 m2 d1 d2 H1 H2 M1 M2 S1 S2 c h1 h2 q o1 o2 : Char) (tail : List Char)
    (hdig : isDigits [y1, y2, y3, y4, m1, m2, d1, d2, H1, H2, M1, M2, S1, S2, h1, h2, o1, o2]
      = true)
    (hc0 : c ≠ NUL) (hc : c.isDigit = false) :
    ∃ r : DateOut, Logged.ToDate mktime d0
      ('D' :: ':' :: y1 :: y2 :: y3 :: y4 :: m1 :: m2 :: d1 :: d2 :: H1 :: H2 :: M1 :: M2 :: S1
        :: S2 :: c :: h1 :: h2 :: q :: o1 :: o2 :: tail) time
      = some (r, [(2, 4), (6, 2), (8, 2), (10, 2), (12, 2), (14, 2), (17, 2), (20, 2)]) := by
  simp only [isDigits, List.all_cons, List.all_nil, Bool.and_true, Bool.and_eq_true] at hdig
  obtain ⟨hy1, hy2, hy3, hy4, hm1, hm2, hd1, hd2, hH1, hH2, hM1, hM2, hS1, hS2, hh1, hh2, ho1,
    ho2⟩ := hdig
  generalize hdate : ('D' :: ':' :: y1 :: y2 :: y3 :: y4 :: m1 :: m2 :: d1 :: d2 :: H1 :: H2 :: M1
    :: M2 :: S1 :: S2 :: c :: h1 :: h2 :: q :: o1 :: o2 :: tail) = date
  have hpre : dateMarker date = some true := by rw [← hdate]; exact dateMarker_D_colon _
  have e2 : date.drop 2 = [y1, y2, y3, y4] ++ m1 :: m2 :: d1 :: d2 :: H1 :: H2 :: M1 :: M2
      :: S1 :: S2 :: c :: h1 :: h2 :: q :: o1 :: o2 :: tail := by rw [← hdate]; rfl
  have e10 : date.drop 10 = H1 :: H2 :: M1 :: M2 :: S1 :: S2 :: c :: h1 :: h2 :: q :: o1 :: o2
      :: tail := by rw [← hdate]; rfl
  have e16 : date.drop 16 = c :: h1 :: h2 :: q :: o1 :: o2 :: tail := by rw [← hdate]; rfl
  have hupto : scanDigits.loop (date.drop 2) 2 = some 16 := by
    rw [← hdate]
    exact scanDigits_loop_run [y1, y2, y3, y4, m1, m2, d1, d2, H1, H2, M1, M2, S1, S2] (by
      intro x hx
      simp only [List.mem_cons, List.mem_singleton, List.not_mem_nil, or_false] at hx
      rcases hx with h | h | h | h | h | h | h | h | h | h | h | h | h | h <;> rw [h] <;>
        assumption) c hc _ 2
  have hy : ToInt.loop (date.drop 2) 4 0 = some (num4 y1 y2 y3 y4) := by
    rw [e2]; exact ToInt_loop_four hy1 hy2 hy3 hy4 _
  obtain ⟨t1, s1, hcal⟩ := logged_calendar_digits e2 (by
        intro x hx
        simp only [List.mem_cons, List.mem_singleton, List.not_mem_nil, or_false] at hx
        rcases hx with h | h | h | h <;> rw [h] <;> assumption)
      hm1 hm2 hd1 hd2 hupto (by simp) hy (memset d0 sizeofTm 0)
  simp only [List.length_cons, List.length_nil, Nat.reduceAdd] at hcal
  obtain ⟨t2, s2, hcl⟩ := logged_clock_full e10 hH1 hH2 hM1 hM2 hS1 hS2 t1 s1
    [(2, 4), (6, 2), (8, 2)]
  simp only [Nat.reduceAdd, List.cons_append, List.nil_append] at hcl
  obtain ⟨t3, s3, hoff⟩ := logged_offset_full e16 hc0 hh1 hh2 ho1 ho2 t2 s2
    [(2, 4), (6, 2), (8, 2), (10, 2), (12, 2), (14, 2)]
  simp only [Nat.reduceAdd, List.cons_append, List.nil_append] at hoff
  unfold Logged.ToDate
  rw [hpre]
  simp only [Option.bind, if_true]
  rw [hcal, hcl, hoff]
  exact ⟨_, rfl⟩

/-! ## The claims -/

/-- C1: an input that does not begin with the two characters `D:` (the empty string and the
string `D` included) is handed back as it is: `ToDate` returns the pointer it was given and
leaves the pointee of `time` untouched, and `GetProperty`, which clears it before the call,
reports the timestamp 0 together with the text of the input. -/
theorem C1_unmarked_input_is_returned {β : Type} (TextToUtf8 : List Char → β)
    (mktime : Tm → Int) (d0 : Tm) (s : List Char) (time : Option Int)
    (h : s.take 2 ≠ ['D', ':']) :
    ToDate mktime d0 (cstr s) time = some { ret := .input, time := time, d := d0 } ∧
    GetProperty TextToUtf8 mktime d0 (some (.string s)) time
      = some (some (TextToUtf8 s), time.map (fun _ => (0 : Int))) := by
  refine ⟨ToDate_unmarked mktime d0 s time h, ?_⟩
  unfold GetProperty
  simp only []
  rw [ToDate_unmarked mktime d0 s _ h]
  rfl

/-- C1 at the inputs of the specification: a text that is no date, the empty string, and
the one-character string D. -/
theorem C1_unmarked_input_is_returned_witness :
    (ToDate (fun _ => 7) tmStale (cstr "Not a date".toList) (some 5)
        = some { ret := .input, time := some 5, d := tmStale } ∧
      GetProperty id (fun _ => 7) tmStale (some (.string "Not a date".toList)) (some 5)
        = some (some "Not a date".toList, some 0)) ∧
    (ToDate (fun _ => 7) tmStale (cstr []) (some 5)
        = some { ret := .input, time := some 5, d := tmStale } ∧
      GetProperty id (fun _ => 7) tmStale (some (.string [])) (some 5)
        = some (some [], some 0)) ∧
    (ToDate (fun _ => 7) tmStale (cstr ['D']) (some 5)
        = some { ret := .input, time := some 5, d := tmStale } ∧
      GetProperty id (fun _ => 7) tmStale (some (.string ['D'])) (some 5)
        = some (some ['D'], some 0)) :=
  ⟨C1_unmarked_input_is_returned id (fun _ => 7) tmStale "Not a date".toList (some 5)
      (by decide),
    C1_unmarked_input_is_returned id (fun _ => 7) tmStale [] (some 5) (by decide),
    C1_unmarked_input_is_returned id (fun _ => 7) tmStale ['D'] (some 5) (by decide)⟩

/-- C2: `D:` followed by exactly fourteen digits and the end of the string gives
`YYYY/MM/DD HH:mm:SS`; followed further by a sign `+` or `-`, two digits, an apostrophe, two
digits and an apostrophe it gives `YYYY/MM/DD HH:mm:SS`, a space, the sign, `hh:mm`. -/
theorem C2_full_date_is_formatted (mktime : Tm → Int) (d0 : Tm) (time : Option Int)
    (y1 y2 y3 y4 m1 m2 d1 d2 H1 H2 M1 M2 S1 S2 : Char)
    (hdig : isDigits [y1, y2, y3, y4, m1, m2, d1, d2, H1, H2, M1, M2, S1, S2] = true) :
    (ToDate mktime d0
        (cstr ['D', ':', y1, y2, y3, y4, m1, m2, d1, d2, H1, H2, M1, M2, S1, S2]) time).map
        DateOut.ret
      = some (.buffer [y1, y2, y3, y4, '/', m1, m2, '/', d1, d2, ' ', H1, H2, ':', M1, M2, ':',
                       S1, S2]) ∧
    ∀ c h1 h2 o1 o2 : Char, c = '+' ∨ c = '-' → isDigits [h1, h2, o1, o2] = true →
      (ToDate mktime d0
          (cstr ['D', ':', y1, y2, y3, y4, m1, m2, d1, d2, H1, H2, M1, M2, S1, S2,
                 c, h1, h2, APOS, o1, o2, APOS]) time).map DateOut.ret
        = some (.buffer [y1, y2, y3, y4, '/', m1, m2, '/', d1, d2, ' ', H1, H2, ':', M1, M2,
                         ':', S1, S2, ' ', c, h1, h2, ':', o1, o2]) := by
  constructor
  · rw [ToDate_digits14 mktime d0 time _ _ _ _ _ _ _ _ _ _ _ _ _ _ hdig]
    rfl
  · intro c h1 h2 o1 o2 hc ho
    have hall : isDigits [y1, y2, y3, y4, m1, m2, d1, d2, H1, H2, M1, M2, S1, S2, h1, h2, o1,
        o2] = true := by
      simp only [isDigits, List.all_cons, List.all_nil, Bool.and_true, Bool.and_eq_true]
        at hdig ho ⊢
      tauto
    have hc0 : c ≠ NUL := by rcases hc with h | h <;> rw [h] <;> decide
    have hcd : c.isDigit = false := by rcases hc with h | h <;> rw [h] <;> decide
    have key := ToDate_full mktime d0 time y1 y2 y3 y4 m1 m2 d1 d2 H1 H2 M1 M2 S1 S2 c h1 h2
      APOS o1 o2 [APOS, NUL] hall hc0 hcd
    show (ToDate mktime d0 ('D' :: ':' :: y1 :: y2 :: y3 :: y4 :: m1 :: m2 :: d1 :: d2 :: H1
      :: H2 :: M1 :: M2 :: S1 :: S2 :: c :: h1 :: h2 :: APOS :: o1 :: o2 :: [APOS, NUL])
      time).map DateOut.ret = _
    rw [key]
    rfl

/-- C2 at the two inputs of the specification, `D:20050315143000` and the same with the
offset `-05'00'`. -/
theorem C2_full_date_is_formatted_witness :
    (ToDate (fun _ => 7) tmStale (cstr "D:20050315143000".toList) none).map DateOut.ret
      = some (.buffer "2005/03/15 14:30:00".toList) ∧
    (ToDate (fun _ => 7) tmStale (cstr "D:20050315143000-05'00'".toList) none).map DateOut.ret
      = some (.buffer "2005/03/15 14:30:00 -05:00".toList) :=
  have h := C2_full_date_is_formatted (fun _ => 7) tmStale none
    '2' '0' '0' '5' '0' '3' '1' '5' '1' '4' '3' '0' '0' '0' (by decide)
  ⟨h.1, h.2 '-' '0' '5' '0' '0' (Or.inr rfl) (by decide)⟩

/-- C3, claim refuted as stated: for `D:2005` the year copy has width `4 - 4 = 0` and the
separators are written all the same, so the result is `/20/05 ` and not `2005`; for
`D:20050315` the result ends in the space that line 109 writes before the time of day. -/
theorem C3_partial_input_counterexample :
    (ToDate (fun _ => 7) tmZero (cstr "D:2005".toList) none).map DateOut.ret
      = some (.buffer "/20/05 ".toList) ∧
    (ToDate (fun _ => 7) tmZero (cstr "D:2005".toList) none).map DateOut.ret
      ≠ some (.buffer "2005".toList) ∧
    (ToDate (fun _ => 7) tmZero (cstr "D:20050315".toList) none).map DateOut.ret
      = some (.buffer "2005/03/15 ".toList) ∧
    (ToDate (fun _ => 7) tmZero (cstr "D:20050315".toList) none).map DateOut.ret
      ≠ some (.buffer "2005/03/15".toList) := by
  decide

/-- C3 as amended: partial inputs are accepted, and the three separators of the date are
written whatever the input holds. `D:` and exactly eight digits `YYYYMMDD` give `YYYY/MM/DD`
followed by one space; `D:` and exactly four digits `abcd` give `/ab/cd` followed by one
space, the year field being empty. -/
theorem C3_partial_input_keeps_separators (mktime : Tm → Int) (d0 : Tm) (time : Option Int)
    (a b c e : Char) (h : isDigits [a, b, c, e] = true) :
    (ToDate mktime d0 (cstr ['D', ':', a, b, c, e]) time).map DateOut.ret
      = some (.buffer ['/', a, b, '/', c, e, ' ']) ∧
    ∀ m1 m2 d1 d2 : Char, isDigits [m1, m2, d1, d2] = true →
      (ToDate mktime d0 (cstr ['D', ':', a, b, c, e, m1, m2, d1, d2]) time).map DateOut.ret
        = some (.buffer [a, b, c, e, '/', m1, m2, '/', d1, d2, ' ']) := by
  simp only [isDigits, List.all_cons, List.all_nil, Bool.and_true, Bool.and_eq_true] at h
  obtain ⟨ha, hb, hc, he⟩ := h
  constructor
  · obtain ⟨y, hy⟩ := ToDate_short mktime d0 time [] a b c e (by simp) (by simp) ha hb hc he
    have hy2 : ToDate mktime d0 (cstr ['D', ':', a, b, c, e]) time = _ := hy
    rw [hy2]; rfl
  · intro m1 m2 d1 d2 h2
    simp only [isDigits, List.all_cons, List.all_nil, Bool.and_true, Bool.and_eq_true] at h2
    obtain ⟨hm1, hm2, hd1, hd2⟩ := h2
    obtain ⟨y, hy⟩ := ToDate_short mktime d0 time [a, b, c, e] m1 m2 d1 d2 (by
      intro x hx
      simp only [List.mem_cons, List.mem_singleton, List.not_mem_nil, or_false] at hx
      rcases hx with h | h | h | h <;> rw [h] <;> assumption) (by simp) hm1 hm2 hd1 hd2
    have hy2 : ToDate mktime d0 (cstr ['D', ':', a, b, c, e, m1, m2, d1, d2]) time = _ := hy
    rw [hy2]; rfl

/-- C3 as amended, at `D:2005` and `D:20050315`. -/
theorem C3_partial_input_keeps_separators_witness :
    (ToDate (fun _ => 7) tmStale (cstr "D:2005".toList) none).map DateOut.ret
      = some (.buffer "/20/05 ".toList) ∧
    (ToDate (fun _ => 7) tmStale (cstr "D:20050315".toList) none).map DateOut.ret
      = some (.buffer "2005/03/15 ".toList) :=
  have h := C3_partial_input_keeps_separators (fun _ => 7) tmStale none '2' '0' '0' '5'
    (by decide)
  ⟨h.1, h.2 '0' '3' '1' '5' (by decide)⟩

/-- C5: on `D:`, fourteen digits, a sign character `c` (any character that is neither a digit
nor the terminator), two digits `hh`, one delimiter character, two digits `mm` and whatever
follows, the struct handed to `mktime` has `tm_year = YYYY - 1900`, `tm_mon = MM - 1`,
`tm_mday = DD`, `tm_hour = HH`, `tm_min = mm`, `tm_sec = SS` and
`tm_gmtoff = sign * (hh * 3600 + mm * 60)` with `sign = -1` for `c = '-'` and `+1` otherwise. -/
theorem C5_fields_handed_to_mktime (mktime : Tm → Int) (d0 : Tm) (time : Option Int)
    (y1 y2 y3 y4 m1 m2 d1 d2 H1 H2 M1 M2 S1 S2 c h1 h2 q o1 o2 : Char) (tail : List Char)
    (hdig : isDigits [y1, y2, y3, y4, m1, m2, d1, d2, H1, H2, M1, M2, S1, S2, h1, h2, o1, o2]
      = true)
    (hc0 : c ≠ NUL) (hc : c.isDigit = false) :
    ∃ r : DateOut,
      ToDate mktime d0
        (cstr (['D', ':', y1, y2, y3, y4, m1, m2, d1, d2, H1, H2, M1, M2, S1, S2, c, h1, h2, q,
                o1, o2] ++ tail)) time = some r ∧
      r.time = time.map (fun _ => mktime r.d) ∧
      r.d.tm_year = num4 y1 y2 y3 y4 - 1900 ∧
      r.d.tm_mon = num2 m1 m2 - 1 ∧
      r.d.tm_mday = num2 d1 d2 ∧
      r.d.tm_hour = num2 H1 H2 ∧
      r.d.tm_min = num2 M1 M2 ∧
      r.d.tm_sec = num2 S1 S2 ∧
      r.d.tm_gmtoff = (if c = '-' then -1 else 1) * (num2 h1 h2 * 3600 + num2 o1 o2 * 60) := by
  have key := ToDate_full mktime d0 time y1 y2 y3 y4 m1 m2 d1 d2 H1 H2 M1 M2 S1 S2 c h1 h2
    q o1 o2 (tail ++ [NUL]) hdig hc0 hc
  refine ⟨_, key, rfl, rfl, rfl, rfl, rfl, rfl, rfl, ?_⟩
  exact Int.mul_comm _ _

/-- C5 at `D:20050315143000-05'00'`: 15 March 2005, 14:30:00, offset -18000 seconds. -/
theorem C5_fields_handed_to_mktime_witness :
    ∃ r : DateOut,
      ToDate (fun _ => 7) tmStale (cstr "D:20050315143000-05'00'".toList) (some 0) = some r ∧
      r.time = (some 0).map (fun _ => (fun _ => 7) r.d) ∧
      r.d.tm_year = 105 ∧ r.d.tm_mon = 2 ∧ r.d.tm_mday = 15 ∧ r.d.tm_hour = 14 ∧
      r.d.tm_min = 30 ∧ r.d.tm_sec = 0 ∧ r.d.tm_gmtoff = -18000 :=
  C5_fields_handed_to_mktime (fun _ => 7) tmStale (some 0)
    '2' '0' '0' '5' '0' '3' '1' '5' '1' '4' '3' '0' '0' '0' '-' '0' '5' APOS '0' '0' [APOS]
    (by decide) (by decide) (by decide)

/-- C8, the code at the failing input `D:20050315143000Z`: after the sign character the string
is at its terminator, `COPYN(2)` copies nothing, the unconditional `i++` of line 126 steps
over the terminator, and the `ToInt` of line 128 reads the byte behind it. With that byte
taken as NUL the result is `2005/03/15 14:30:00 Z:`. -/
theorem C8_offset_reads_past_terminator (mktime : Tm → Int) (d0 : Tm) (time : Option Int) :
    ToDate mktime d0 (cstr "D:20050315143000Z".toList) time = none ∧
    (ToDate mktime d0 ("D:20050315143000Z".toList ++ [NUL, NUL]) time).map DateOut.ret
      = some (.buffer "2005/03/15 14:30:00 Z:".toList) :=
  ⟨rfl, rfl⟩

/-- C9, the code at the failing inputs: `memset(&d, sizeof(d), 0)` writes no byte, so for
`D:20050315` the fields `tm_hour`, `tm_min`, `tm_sec` and `tm_gmtoff` handed to `mktime` are
whatever the stack slot of `d` held, and for `D:20050315143000` so is `tm_gmtoff`; with
leftover content in the slot they are not zero. -/
theorem C9_unset_fields_keep_stack_content (mktime : Tm → Int) (d0 : Tm) (time : Option Int) :
    (ToDate mktime d0 (cstr "D:20050315".toList) time).map
        (fun r => (r.d.tm_hour, r.d.tm_min, r.d.tm_sec, r.d.tm_gmtoff))
      = some (d0.tm_hour, d0.tm_min, d0.tm_sec, d0.tm_gmtoff) ∧
    (ToDate mktime d0 (cstr "D:20050315143000".toList) time).map (fun r => r.d.tm_gmtoff)
      = some d0.tm_gmtoff ∧
    (ToDate mktime tmStale (cstr "D:20050315".toList) time).map (fun r => r.d.tm_hour)
      = some 59 :=
  ⟨rfl, rfl, rfl⟩

/-- C6, claim refuted as stated: the ten digits `4294967296` are a run of length at most
`n = 10` whose decimal value is 4294967296, and the `int` that `ToInt` returns for it is not
that number (reduced to 32 bits it is 0). -/
theorem C6_int_range_counterexample :
    ToInt (cstr "4294967296".toList) 0 10 = some 0 ∧
    decimalValue (digitRun "4294967296".toList 0 10) = 4294967296 ∧
    ToInt (cstr "4294967296".toList) 0 10
      ≠ some (decimalValue (digitRun "4294967296".toList 0 10)) := by
  decide

/-- C6 as amended: for every string `s`, every offset `i` not past its end and every
`n ≥ 0`, `ToInt(s, i, n)` returns the decimal value of the longest run of ASCII digits that
starts at `i` and has at most `n` characters (0 when the run is empty), provided that value
fits an `int`, that is, is at most 2147483647; it does so whenever `n ≤ 9`. -/
theorem C6_ToInt_reads_digit_run (s : List Char) (i n : Nat) (hi : i ≤ s.length)
    (hfit : n ≤ 9 ∨ decimalValue (digitRun s i n) ≤ 2147483647) :
    ToInt (cstr s) i (n : Int) = some (decimalValue (digitRun s i n)) ∧
    (digitRun s i n = [] → ToInt (cstr s) i (n : Int) = some 0) := by
  have hfit2 : decimalValue (digitRun s i n) ≤ 2147483647 := by
    rcases hfit with h | h
    · exact decimalValue_of_short s i n h
    · exact h
  have hdrop : (cstr s).drop i = s.drop i ++ [NUL] := by
    unfold cstr
    exact List.drop_append_of_le_length hi
  have main : ToInt (cstr s) i (n : Int) = some (decimalValue (digitRun s i n)) := by
    unfold ToInt
    rw [hdrop]
    exact ToInt_loop_run (s.drop i) n 0 (le_refl _) hfit2
  refine ⟨main, ?_⟩
  intro hempty
  rw [main, hempty]
  rfl

/-- C6 as amended, at the year of `D:2005`, at a run cut short by its end, and at an empty
run. -/
theorem C6_ToInt_reads_digit_run_witness :
    (ToInt (cstr "D:2005".toList) 2 ((4 : Nat) : Int)
        = some (decimalValue (digitRun "D:2005".toList 2 4)) ∧
      (digitRun "D:2005".toList 2 4 = [] →
        ToInt (cstr "D:2005".toList) 2 ((4 : Nat) : Int) = some 0)) ∧
    decimalValue (digitRun "D:2005".toList 2 4) = 2005 ∧
    decimalValue (digitRun "D:2005".toList 5 4) = 5 ∧
    decimalValue (digitRun "D:2005".toList 6 4) = 0 :=
  ⟨C6_ToInt_reads_digit_run "D:2005".toList 2 4 (by decide) (Or.inl (by decide)),
    by decide, by decide, by decide⟩

/-- C7, claim refuted as stated: `D:2005` and `D:200503` are well-formed, and on them `ToDate`
calls `ToInt` for the year at index 2 and for month and day at digits the year call has
already read: `D:2005` gives year 2005, month 20, day 05 (`tm_mon = 19`), so the three calls
consume 8 digits where the input has 4, and on `D:200503` 8 where it has 6. -/
theorem C7_digit_use_counterexample :
    wellFormed "D:2005".toList = true ∧
    Logged.ToDate (fun _ => 7) tmZero (cstr "D:2005".toList) none
      = some ({ ret := .buffer "/20/05 ".toList, time := none,
                d := { tmZero with tm_year := 2005 - 1900, tm_mon := 20 - 1, tm_mday := 5 } },
              [(2, 4), (2, 2), (4, 2)]) ∧
    digitsConsumed "D:2005".toList [(2, 4), (2, 2), (4, 2)] = 8 ∧
    "D:2005".toList.countP Char.isDigit = 4 ∧
    wellFormed "D:200503".toList = true ∧
    (Logged.ToDate (fun _ => 7) tmZero (cstr "D:200503".toList) none).map Prod.snd
      = some [(2, 4), (4, 2), (6, 2)] ∧
    digitsConsumed "D:200503".toList [(2, 4), (4, 2), (6, 2)] = 8 ∧
    "D:200503".toList.countP Char.isDigit = 6 := by
  decide

/-- C7 as amended: for every well-formed input, that is, every string of the grammar
`D:YYYY[MM[DD[HH[mm[SS[OHH'mm']]]]]]` with the digit groups in order and the offset group in
full or absent, `ToDate` and the `ToInt` calls it makes read no byte behind the terminator
(the embedding returns a result); and when the input has at least 8 digits, the digits those
`ToInt` calls consume are no more than the digits of the input. -/
theorem C7_well_formed_reads_and_digit_use (mktime : Tm → Int) (d0 : Tm)
    (time : Option Int) (s : List Char) (h : wellFormed s = true) :
    ∃ r out log, ToDate mktime d0 (cstr s) time = some r ∧ r.ret = .buffer out ∧
      Logged.ToDate mktime d0 (cstr s) time = some (r, log) ∧
      (8 ≤ s.countP Char.isDigit → digitsConsumed s log ≤ s.countP Char.isDigit) := by
  simp only [wellFormed, Bool.and_eq_true, Bool.or_eq_true, decide_eq_true_eq] at h
  obtain ⟨hpre, hcase⟩ := h
  have hs : s = 'D' :: ':' :: s.drop 2 := by
    have h1 := List.take_append_drop 2 s
    rw [hpre] at h1
    exact h1.symm
  have hbody : List.takeWhile Char.isDigit (s.drop 2) ++ List.dropWhile Char.isDigit (s.drop 2)
      = s.drop 2 := List.takeWhile_append_dropWhile _ _
  have hds : ∀ c ∈ List.takeWhile Char.isDigit (s.drop 2), c.isDigit = true :=
    fun c hc => List.mem_takeWhile_imp hc
  generalize List.takeWhile Char.isDigit (s.drop 2) = ds at hcase hbody hds
  generalize List.dropWhile Char.isDigit (s.drop 2) = tl at hcase hbody
  rw [← hbody] at hs
  have hcount : s.countP Char.isDigit = ds.length + tl.countP Char.isDigit := by
    rw [hs, List.countP_cons, List.countP_cons, List.countP_append,
      countP_digits_eq_length ds hds]
    simp
  have erase : ∀ (r r2 : DateOut) (log : List (Nat × Nat)),
      ToDate mktime d0 (cstr s) time = some r →
      Logged.ToDate mktime d0 (cstr s) time = some (r2, log) →
      Logged.ToDate mktime d0 (cstr s) time = some (r, log) := by
    intro r r2 log hr hl
    have he := logged_ToDate_erase mktime d0 (cstr s) time
    rw [hl, hr] at he
    have hrr : r2 = r := Option.some.inj he
    rw [hl, hrr]
  rcases hcase with ⟨hmem, htl⟩ | ⟨hlen, hoff⟩
  · by_cases h14 : ds.length = 14
    · obtain ⟨y1, y2, y3, y4, m1, m2, d1, d2, H1, H2, M1, M2, S1, S2, hds14⟩ :=
        exists_fourteen_of_length ds h14
      have hdig : isDigits [y1, y2, y3, y4, m1, m2, d1, d2, H1, H2, M1, M2, S1, S2] = true := by
        rw [← hds14]; exact List.all_eq_true.2 hds
      have key := ToDate_digits14 mktime d0 time y1 y2 y3 y4 m1 m2 d1 d2 H1 H2 M1 M2 S1 S2 hdig
      obtain ⟨r2, hlog⟩ :=
        logged_ToDate_digits14 mktime d0 time y1 y2 y3 y4 m1 m2 d1 d2 H1 H2 M1 M2 S1 S2 hdig
      have hs2 : s = ['D', ':', y1, y2, y3, y4, m1, m2, d1, d2, H1, H2, M1, M2, S1, S2] := by
        rw [hs, htl, hds14]; rfl
      rw [← hs2] at key hlog
      refine ⟨_, _, _, key, rfl, erase _ _ _ key hlog, fun _ => ?_⟩
      have b1 := digitRun_length_le s 2 4
      have b2 := digitRun_length_le s 6 2
      have b3 := digitRun_length_le s 8 2
      have b4 := digitRun_length_le s 10 2
      have b5 := digitRun_length_le s 12 2
      have b6 := digitRun_length_le s 14 2
      simp only [digitsConsumed, List.map_cons, List.map_nil, List.sum_cons, List.sum_nil]
      omega
    · have hge : 4 ≤ ds.length := by
        simp only [List.mem_cons, List.mem_singleton, List.not_mem_nil, or_false] at hmem
        omega
      have hle : ds.length ≤ 12 := by
        simp only [List.mem_cons, List.mem_singleton, List.not_mem_nil, or_false] at hmem
        omega
      obtain ⟨p, a, b, c, e, hpe, hplen⟩ := exists_last_four ds hge
      have hp : ∀ x ∈ p, x.isDigit = true := fun x hx => hds x (by rw [hpe]; simp [hx])
      have ha : a.isDigit = true := hds a (by rw [hpe]; simp)
      have hb : b.isDigit = true := hds b (by rw [hpe]; simp)
      have hc : c.isDigit = true := hds c (by rw [hpe]; simp)
      have he : e.isDigit = true := hds e (by rw [hpe]; simp)
      obtain ⟨y, key⟩ := ToDate_short mktime d0 time p a b c e hp (by omega) ha hb hc he
      obtain ⟨r2, hlog⟩ := logged_ToDate_short mktime d0 time p a b c e hp (by omega) ha hb hc he
      have hs2 : s = 'D' :: ':' :: (p ++ [a, b, c, e]) := by
        rw [hs, htl, hpe]; simp
      rw [← hs2] at key hlog
      refine ⟨_, _, _, key, rfl, erase _ _ _ key hlog, fun h8 => ?_⟩
      have b1 := digitRun_length_le s 2 4
      have b2 := digitRun_length_le s (2 + p.length) 2
      have b3 := digitRun_length_le s (2 + p.length + 2) 2
      have htl0 : tl.countP Char.isDigit = 0 := by rw [htl]; rfl
      simp only [digitsConsumed, List.map_cons, List.map_nil, List.sum_cons, List.sum_nil]
      omega
  · obtain ⟨y1, y2, y3, y4, m1, m2, d1, d2, H1, H2, M1, M2, S1, S2, hds14⟩ :=
      exists_fourteen_of_length ds hlen
    obtain ⟨o, h1, h2, o1, o2, htl, ho, hod⟩ := offsetGroup_shape tl hoff
    have hdig : isDigits [y1, y2, y3, y4, m1, m2, d1, d2, H1, H2, M1, M2, S1, S2] = true := by
      rw [← hds14]; exact List.all_eq_true.2 hds
    have hall : isDigits [y1, y2, y3, y4, m1, m2, d1, d2, H1, H2, M1, M2, S1, S2, h1, h2, o1,
        o2] = true := by
      simp only [isDigits, List.all_cons, List.all_nil, Bool.and_true, Bool.and_eq_true]
        at hdig hod ⊢
      tauto
    have ho0 : o ≠ NUL := by rcases ho with h | h | h <;> rw [h] <;> decide
    have hod2 : o.isDigit = false := by rcases ho with h | h | h <;> rw [h] <;> decide
    have key := ToDate_full mktime d0 time y1 y2 y3 y4 m1 m2 d1 d2 H1 H2 M1 M2 S1 S2 o h1 h2
      APOS o1 o2 [APOS, NUL] hall ho0 hod2
    obtain ⟨r2, hlog⟩ := logged_ToDate_full mktime d0 time y1 y2 y3 y4 m1 m2 d1 d2 H1 H2 M1 M2 S1
      S2 o h1 h2 APOS o1 o2 [APOS, NUL] hall ho0 hod2
    have hs2 : cstr s = 'D' :: ':' :: y1 :: y2 :: y3 :: y4 :: m1 :: m2 :: d1 :: d2 :: H1 :: H2
        :: M1 :: M2 :: S1 :: S2 :: o :: h1 :: h2 :: APOS :: o1 :: o2 :: [APOS, NUL] := by
      rw [hs, htl, hds14]; rfl
    rw [← hs2] at key hlog
    refine ⟨_, _, _, key, rfl, erase _ _ _ key hlog, fun _ => ?_⟩
    have b1 := digitRun_length_le s 2 4
    have b2 := digitRun_length_le s 6 2
    have b3 := digitRun_length_le s 8 2
    have b4 := digitRun_length_le s 10 2
    have b5 := digitRun_length_le s 12 2
    have b6 := digitRun_length_le s 14 2
    have b7 := digitRun_length_le s 17 2
    have b8 := digitRun_length_le s 20 2
    have htl4 : tl.countP Char.isDigit = 4 := by
      simp only [isDigits, List.all_cons, List.all_nil, Bool.and_true, Bool.and_eq_true] at hod
      obtain ⟨e1, e2, e3, e4⟩ := hod
      have hA : APOS.isDigit = false := by decide
      rw [htl]
      simp [List.countP_cons, e1, e2, e3, e4, hA, hod2]
    simp only [digitsConsumed, List.map_cons, List.map_nil, List.sum_cons, List.sum_nil]
    omega

/-- C7 as amended, at the full form `D:20050315143000-05'00'`: 18 digits, eight `ToInt`
calls. -/
theorem C7_well_formed_reads_and_digit_use_witness :
    ∃ r out log, ToDate (fun _ => 7) tmStale (cstr "D:20050315143000-05'00'".toList) (some 0)
        = some r ∧ r.ret = .buffer out ∧
      Logged.ToDate (fun _ => 7) tmStale (cstr "D:20050315143000-05'00'".toList) (some 0)
        = some (r, log) ∧
      (8 ≤ "D:20050315143000-05'00'".toList.countP Char.isDigit →
        digitsConsumed "D:20050315143000-05'00'".toList log
          ≤ "D:20050315143000-05'00'".toList.countP Char.isDigit) :=
  C7_well_formed_reads_and_digit_use (fun _ => 7) tmStale (some 0)
    "D:20050315143000-05'00'".toList (by decide)

/-- C10: for every input that begins with `D:`, any byte behind the terminator being read as
NUL, `ToDate` produces a string that interleaves characters of the input behind the `D:`,
each taken at most once and in their order, with a selection of the seven separators
`/ / space : : space :`; its length is therefore at most the length of the input plus 5, and
with its terminator it fits the 80 bytes of `s` whenever the input has at most 74
characters. -/
theorem C10_output_length_bound (mktime : Tm → Int) (d0 : Tm) (time : Option Int)
    (body junk : List Char) :
    ∃ r out copied seps,
      ToDate mktime d0 (('D' :: ':' :: body) ++ NUL :: NUL :: junk) time = some r ∧
      r.ret = .buffer out ∧
      Weave copied seps out ∧ copied.Sublist body ∧ seps.Sublist separators ∧
      out.length ≤ ('D' :: ':' :: body).length + 5 ∧
      (('D' :: ':' :: body).length ≤ 74 → out.length + 1 ≤ 80) := by
  obtain ⟨d1, k, ext, copied, seps, hcal, hw, hsub, hseps⟩ :=
    calendar_pad body junk (memset d0 sizeofTm 0)
  have hlen : ((body.dropWhile (fun c => c = ' ')).take k ++ '/' :: ext).length
      ≤ ('D' :: ':' :: body).length + 5 := by
    have h1 := hw.length_eq
    have h2 := hsub.length_le
    have h3 := hseps.length_le
    simp only [separators, List.length_cons, List.length_nil] at h3 ⊢
    omega
  refine ⟨{ ret := .buffer _, time := time.map (fun _ => mktime d1), d := d1 }, _, copied, seps,
    ?_, rfl, hw, hsub, hseps, hlen, fun h74 => by omega⟩
  unfold ToDate
  have hm : dateMarker (('D' :: ':' :: body) ++ NUL :: NUL :: junk) = some true :=
    dateMarker_D_colon _
  rw [hm]
  simp only [Option.bind, if_true]
  rw [hcal]

/-- C10 at `D:20050315143000Z`, the input whose output reaches the bound: 17 characters in,
22 characters out. -/
theorem C10_output_length_bound_witness :
    (∃ r out copied seps,
      ToDate (fun _ => 7) tmStale
        (('D' :: ':' :: "20050315143000Z".toList) ++ NUL :: NUL :: []) none = some r ∧
      r.ret = .buffer out ∧
      Weave copied seps out ∧ copied.Sublist "20050315143000Z".toList ∧
      seps.Sublist separators ∧
      out.length ≤ ('D' :: ':' :: "20050315143000Z".toList).length + 5 ∧
      (('D' :: ':' :: "20050315143000Z".toList).length ≤ 74 → out.length + 1 ≤ 80)) ∧
    (ToDate (fun _ => 7) tmStale
        (('D' :: ':' :: "20050315143000Z".toList) ++ NUL :: NUL :: []) none).map
        (fun r => (r.ret.str []).length) = some (17 + 5) :=
  ⟨C10_output_length_bound (fun _ => 7) tmStale none "20050315143000Z".toList [], by decide⟩

/-- C4, claim refuted as stated: for `D:D:` the digit run is empty, the year copy has the
negative width `0 - 4` and so copies the rest of the input; the result `D:// ` begins with
`D:`, so it is not a string that `ToDate` hands back untouched. -/
theorem C4_idempotence_counterexample :
    (ToDate (fun _ => 7) tmZero (cstr "D:D:".toList) none).map DateOut.ret
      = some (.buffer "D:// ".toList) ∧
    "D:// ".toList.take 2 = ['D', ':'] := by
  decide

/-- C4 as amended: for every input `x` that is not of the form `D:`, spaces, `D:`, ... and
that, when it begins with `D:`, has at most 74 characters, the string `ToDate(x)` fits the 80
bytes of `s`, does not begin with `D:`, and therefore `ToDate` applied to it returns at line
138, before it writes anything, with the pointer it was given (whatever bytes follow the
terminator of that string). This holds of the result obtained with any byte behind the
terminator of `x` read as NUL, which exists, and of every result obtained without reading
behind that terminator. -/
theorem C4_idempotent_unless_marker_repeats (mktime : Tm → Int) (d0 : Tm) (time : Option Int)
    (x junk : List Char) (h : reDated x = false)
    (hfit : x.take 2 = ['D', ':'] → x.length ≤ 74) :
    (∃ r, ToDate mktime d0 (x ++ NUL :: NUL :: junk) time = some r ∧
      (∀ out, r.ret = .buffer out → out.length + 1 ≤ 80) ∧
      (r.ret.str x).take 2 ≠ ['D', ':'] ∧
      ∀ (d1 : Tm) (time2 : Option Int) (rest : List Char),
        ToDate mktime d1 (r.ret.str x ++ NUL :: rest) time2
          = some { ret := .input, time := time2, d := d1 }) ∧
    (∀ r, ToDate mktime d0 (cstr x) time = some r →
      (∀ out, r.ret = .buffer out → out.length + 1 ≤ 80) ∧
      (r.ret.str x).take 2 ≠ ['D', ':'] ∧
      ∀ (d1 : Tm) (time2 : Option Int) (rest : List Char),
        ToDate mktime d1 (r.ret.str x ++ NUL :: rest) time2
          = some { ret := .input, time := time2, d := d1 }) := by
  have padded : ∃ r, ToDate mktime d0 (x ++ NUL :: NUL :: junk) time = some r ∧
      (∀ out, r.ret = .buffer out → out.length + 1 ≤ 80) ∧
      (r.ret.str x).take 2 ≠ ['D', ':'] ∧
      ∀ (d1 : Tm) (time2 : Option Int) (rest : List Char),
        ToDate mktime d1 (r.ret.str x ++ NUL :: rest) time2
          = some { ret := .input, time := time2, d := d1 } := by
    by_cases hx : x.take 2 = ['D', ':']
    · have hxs := eq_cons_cons_of_take_two hx
      have hxlen := hfit hx
      have hre : ((x.drop 2).dropWhile (fun c => c = ' ')).take 2 ≠ ['D', ':'] := by
        intro hcontra
        simp [reDated, hx, hcontra] at h
      generalize x.drop 2 = body at hxs hre
      obtain ⟨d1, k, ext, copied, seps, hcal, hw, hsub, hseps⟩ :=
        calendar_pad body junk (memset d0 sizeofTm 0)
      have hlen : ((body.dropWhile (fun c => c = ' ')).take k ++ '/' :: ext).length + 1
          ≤ 80 := by
        have h1 := hw.length_eq
        have h2 := hsub.length_le
        have h3 := hseps.length_le
        have h4 : x.length = body.length + 2 := by rw [hxs]; simp
        simp only [separators, List.length_cons, List.length_nil] at h3
        omega
      have hout : ((body.dropWhile (fun c => c = ' ')).take k ++ '/' :: ext).take 2
          ≠ ['D', ':'] := by
        generalize hw2 : body.dropWhile (fun c => decide (c = ' ')) = w at hre ⊢
        intro hcontra
        have htt : List.take 2 (List.take k w) = List.take 2 w
            ∨ (List.take k w).length < 2 := by
          rcases Nat.lt_or_ge k 2 with hk | hk
          · right
            rw [List.length_take]
            omega
          · left
            rw [List.take_take, Nat.min_eq_left hk]
        rcases hgen : List.take k w with _ | ⟨a, _ | ⟨b, t⟩⟩
        · rw [hgen] at hcontra
          simp at hcontra
        · rw [hgen] at hcontra
          simp at hcontra
        · rw [hgen] at hcontra htt
          rcases htt with h2 | h2
          · apply hre
            rw [← h2]
            simpa using hcontra
          · simp only [List.length_cons] at h2
            omega
      refine ⟨{ ret := .buffer _, time := time.map (fun _ => mktime d1), d := d1 }, ?_, ?_,
        hout, fun d2 time2 rest => ToDate_unmarked_terminated mktime d2 _ rest time2 hout⟩
      · rw [hxs]
        unfold ToDate
        have hm : dateMarker (('D' :: ':' :: body) ++ NUL :: NUL :: junk) = some true :=
          dateMarker_D_colon _
        rw [hm]
        simp only [Option.bind, if_true]
        rw [hcal]
      · intro out hbuf
        have hinj : (body.dropWhile (fun c => decide (c = ' '))).take k ++ '/' :: ext = out :=
          Ret.buffer.inj hbuf
        rw [← hinj]
        exact hlen
    · refine ⟨_, ToDate_unmarked_terminated mktime d0 x _ time hx, ?_, hx,
        fun d2 time2 rest => ToDate_unmarked_terminated mktime d2 x rest time2 hx⟩
      intro out hbuf
      exact absurd hbuf (by simp)
  refine ⟨padded, fun r hr => ?_⟩
  obtain ⟨r2, hr2, hP⟩ := padded
  have hext := ToDate_mono mktime d0 (NUL :: junk) hr
  have hmem : cstr x ++ NUL :: junk = x ++ NUL :: NUL :: junk := by simp [cstr]
  rw [hmem, hr2] at hext
  have hrr : r2 = r := Option.some.inj hext
  rw [← hrr]
  exact hP

/-- C4 as amended, at `D:20050315143000`: the result `2005/03/15 14:30:00` is returned as it
is by a second call. -/
theorem C4_idempotent_unless_marker_repeats_witness :
    (∃ r, ToDate (fun _ => 7) tmStale ("D:20050315143000".toList ++ NUL :: NUL :: []) none
        = some r ∧
      (∀ out, r.ret = .buffer out → out.length + 1 ≤ 80) ∧
      (r.ret.str "D:20050315143000".toList).take 2 ≠ ['D', ':'] ∧
      ∀ (d1 : Tm) (time2 : Option Int) (rest : List Char),
        ToDate (fun _ => 7) d1 (r.ret.str "D:20050315143000".toList ++ NUL :: rest) time2
          = some { ret := .input, time := time2, d := d1 }) ∧
    (∀ r, ToDate (fun _ => 7) tmStale (cstr "D:20050315143000".toList) none = some r →
      (∀ out, r.ret = .buffer out → out.length + 1 ≤ 80) ∧
      (r.ret.str "D:20050315143000".toList).take 2 ≠ ['D', ':'] ∧
      ∀ (d1 : Tm) (time2 : Option Int) (rest : List Char),
        ToDate (fun _ => 7) d1 (r.ret.str "D:20050315143000".toList ++ NUL :: rest) time2
          = some { ret := .input, time := time2, d := d1 }) :=
  C4_idempotent_unless_marker_repeats (fun _ => 7) tmStale none "D:20050315143000".toList []
    (by decide) (by decide)

end BePDF
